import Mathlib

/-!
Shallow embedding of the valuation engine of the `bond` repository
(`src/lib/valuation/compute.ts`) and proofs about the specification's claims.

JavaScript numbers are modelled by `Bond.JNum`: a finite rational, `+∞`, `-∞`,
or `NaN`, with arithmetic and comparison operations mirroring IEEE-754 /
ECMAScript semantics on those values (exact rational arithmetic stands in for
binary floating point; all claim-relevant computations are exact).
-/

namespace Bond

/- `Rat.add`, `Rat.sub`, `Rat.mul`, `Rat.inv` and `Rat.ofScientific` are
`@[irreducible]` in the library, which blocks the `decide` tactic's evaluator
(not the kernel) on concrete rational arithmetic; restore reducibility for
this development's concrete evaluations. -/
attribute [local semireducible] Rat.add Rat.sub Rat.mul Rat.inv Rat.ofScientific

/-- A JavaScript `number`: finite (modelled exactly as a rational), `Infinity`,
`-Infinity`, or `NaN`. -/
inductive JNum where
  | fin (q : ℚ)
  | posInf
  | negInf
  | nan
deriving DecidableEq, Repr

namespace JNum

/-- `Number.isFinite`. -/
def isFinite : JNum → Bool
  | fin _ => true
  | _ => false

/-- JavaScript truthiness of a number: `0`, `-0` and `NaN` are falsy. -/
def truthy : JNum → Bool
  | fin q => decide (q ≠ 0)
  | nan => false
  | _ => true

/-- JavaScript `<=` on numbers (`false` whenever an operand is `NaN`). -/
def leb : JNum → JNum → Bool
  | nan, _ => false
  | _, nan => false
  | negInf, _ => true
  | _, negInf => false
  | _, posInf => true
  | posInf, _ => false
  | fin a, fin b => decide (a ≤ b)

/-- JavaScript `<` on numbers (`false` whenever an operand is `NaN`). -/
def ltb : JNum → JNum → Bool
  | nan, _ => false
  | _, nan => false
  | posInf, _ => false
  | _, posInf => true
  | _, negInf => false
  | negInf, _ => true
  | fin a, fin b => decide (a < b)

/-- JavaScript `>` on numbers. -/
def gtb (a b : JNum) : Bool := ltb b a

/-- IEEE-754 addition. -/
def add : JNum → JNum → JNum
  | nan, _ => nan
  | _, nan => nan
  | posInf, negInf => nan
  | negInf, posInf => nan
  | posInf, _ => posInf
  | _, posInf => posInf
  | negInf, _ => negInf
  | _, negInf => negInf
  | fin a, fin b => fin (a + b)

/-- IEEE-754 negation. -/
def neg : JNum → JNum
  | fin q => fin (-q)
  | posInf => negInf
  | negInf => posInf
  | nan => nan

/-- IEEE-754 subtraction. -/
def sub (a b : JNum) : JNum := add a (neg b)

/-- IEEE-754 multiplication. -/
def mul : JNum → JNum → JNum
  | nan, _ => nan
  | _, nan => nan
  | posInf, posInf => posInf
  | posInf, negInf => negInf
  | negInf, posInf => negInf
  | negInf, negInf => posInf
  | posInf, fin q => if q = 0 then nan else if 0 < q then posInf else negInf
  | fin q, posInf => if q = 0 then nan else if 0 < q then posInf else negInf
  | negInf, fin q => if q = 0 then nan else if 0 < q then negInf else posInf
  | fin q, negInf => if q = 0 then nan else if 0 < q then negInf else posInf
  | fin a, fin b => fin (a * b)

/-- IEEE-754 division (the sign of a zero divisor is not modelled: `ℚ` has a
single zero, and on every path reachable from validated inputs the divisor is
nonzero). -/
def div : JNum → JNum → JNum
  | nan, _ => nan
  | _, nan => nan
  | posInf, posInf => nan
  | posInf, negInf => nan
  | negInf, posInf => nan
  | negInf, negInf => nan
  | posInf, fin q => if 0 ≤ q then posInf else negInf
  | negInf, fin q => if 0 ≤ q then negInf else posInf
  | fin _, posInf => fin 0
  | fin _, negInf => fin 0
  | fin a, fin b =>
      if b = 0 then (if a = 0 then nan else if 0 < a then posInf else negInf)
      else fin (a / b)

/-- JavaScript `Math.min` on two numbers (signed zero not distinguished). -/
def jmin : JNum → JNum → JNum
  | nan, _ => nan
  | _, nan => nan
  | negInf, _ => negInf
  | _, negInf => negInf
  | posInf, y => y
  | x, posInf => x
  | fin a, fin b => fin (min a b)

/-- JavaScript `Math.max` on two numbers (signed zero not distinguished). -/
def jmax : JNum → JNum → JNum
  | nan, _ => nan
  | _, nan => nan
  | posInf, _ => posInf
  | _, posInf => posInf
  | negInf, y => y
  | x, negInf => x
  | fin a, fin b => fin (max a b)

/-- The rational value of a finite `JNum` (junk value `0` otherwise; only ever
used under an `isFinite` hypothesis). -/
def ratOf : JNum → ℚ
  | fin q => q
  | _ => 0

/-- Template-literal rendering (`` `${x}` ``) of a number.  Integral values and
the non-finite values render exactly as in JavaScript; non-integral rationals
are rendered as `num/den` (JavaScript prints a shortest decimal expansion
instead, but no claim evaluates a message at a non-integral value). -/
def toStr : JNum → String
  | nan => "NaN"
  | posInf => "Infinity"
  | negInf => "-Infinity"
  | fin q => if q.den = 1 then toString q.num else toString q.num ++ "/" ++ toString q.den

end JNum

/-- Group the decimal digits of a natural number in threes, least-significant
digit first (input and output are reversed digit lists). -/
def group3 : List Char → List Char
  | a :: b :: c :: d :: rest => a :: b :: c :: ',' :: group3 (d :: rest)
  | l => l

/-- Thousands-grouped decimal rendering of a natural number, as produced by
`Intl.NumberFormat('ja-JP', { useGrouping: true })`. -/
def groupedNat (n : Nat) : String :=
  String.mk (group3 (Nat.repr n).data.reverse).reverse

/-- The formatting collaborator `formatJPY` at its default options
(`maximumFractionDigits: 0`, `showCurrencySymbol: true`, no scaling,
`negativeStyle: 'minus'`), as called by the valuation core: round half away
from zero to an integer, group with commas, prefix `¥` (with `-` before it for
negative amounts); `∞`, `-∞` and `NaN` render specially. -/
def formatJPY : JNum → String
  | JNum.posInf => "∞"
  | JNum.negInf => "-∞"
  | JNum.nan => "N/A"
  | JNum.fin q =>
      if q < 0 then "-¥" ++ groupedNat (⌊(-q) + 1/2⌋).toNat
      else "¥" ++ groupedNat (⌊q + 1/2⌋).toNat

/-- `Number.prototype.toFixed(0)`: round to the nearest integer, ties to the
larger value after sign extraction, as specified by ECMA-262. -/
def toFixed0 : JNum → String
  | JNum.nan => "NaN"
  | JNum.posInf => "Infinity"
  | JNum.negInf => "-Infinity"
  | JNum.fin q =>
      if q < 0 then "-" ++ Nat.repr (⌊(-q) + 1/2⌋).toNat
      else Nat.repr (⌊q + 1/2⌋).toNat

/-- The valuation methods (`type Method`). -/
inductive Method where
  | evSales
  | evEbitda
  | pe
deriving DecidableEq, Repr

/-- The display name of a method. -/
def methodName : Method → String
  | .evSales => "EV/Sales"
  | .evEbitda => "EV/EBITDA"
  | .pe => "P/E"

/-- The input record (`interface Inputs`).  The per-method EV map and the
weight map are total functions into `Option`, mirroring
`Partial<Record<Method, number>>` (a `none` entry is an absent key).  The
descriptive metadata fields (`companyName`, `valuationDate`) have no effect on
any computation and are omitted. -/
structure Inputs where
  sharesOutstanding : JNum
  netDebtYen : JNum
  evByMethod : Method → Option JNum
  pePrice : Option JNum
  weights : Method → Option JNum

/-- One row of the bridge table (`interface Bridge`). -/
structure Bridge where
  method : Method
  EV : JNum
  Equity : JNum
  PricePerShare : JNum
  used : Bool
  skipReason : Option String
deriving DecidableEq, Repr

/-- The summary statistics (`interface Summary`). -/
structure Summary where
  avg : JNum
  median : JNum
  weighted : JNum
  range : JNum × JNum
  validMethodCount : Nat
  usedMethods : List Method
deriving DecidableEq, Repr

/-- The result record (`interface ValuationResult`). -/
structure ValuationResult where
  bridges : List Bridge
  summary : Summary
  inputs : Inputs
  warnings : List String
  errors : List String
  success : Bool

/-- `DEFAULT_WEIGHTS`. -/
def DEFAULT_WEIGHTS : Method → JNum
  | .evSales => .fin (2/5)
  | .evEbitda => .fin (2/5)
  | .pe => .fin (1/5)

/-- `{ ...DEFAULT_WEIGHTS, ...inputs.weights }`: per-key override of the
defaults by the supplied weights. -/
def mergedWeights (i : Inputs) : Method → JNum :=
  fun m => (i.weights m).getD (DEFAULT_WEIGHTS m)

/-- Ascending insertion into a sorted list, comparing with JavaScript `<=`;
together with `sortAsc` this realizes `[...arr].sort((a, b) => a - b)` on the
lists of finite numbers the source ever sorts. -/
def insertAsc (x : JNum) : List JNum → List JNum
  | [] => [x]
  | y :: ys => if JNum.leb x y then x :: y :: ys else y :: insertAsc x ys

/-- Ascending sort (`[...arr].sort((a, b) => a - b)`). -/
def sortAsc (l : List JNum) : List JNum := l.foldr insertAsc []

/-- `function median(arr)`: `NaN` on the empty list, otherwise the middle
element of the ascending sort (odd length) or the mean of the two middle
elements (even length). -/
def median (arr : List JNum) : JNum :=
  if arr.length = 0 then .nan
  else
    let sorted := sortAsc arr
    let mid := sorted.length / 2
    if sorted.length % 2 ≠ 0 then sorted.getD mid .nan
    else JNum.div (JNum.add (sorted.getD (mid - 1) .nan) (sorted.getD mid .nan)) (.fin 2)

/-- The error contribution of the shares-outstanding rule of `validateInputs`. -/
def sharesErrors (i : Inputs) : List String :=
  if !i.sharesOutstanding.isFinite || JNum.leb i.sharesOutstanding (.fin 0) then
    ["Invalid shares outstanding: " ++ i.sharesOutstanding.toStr]
  else []

/-- The error contribution of the net-debt rule of `validateInputs`. -/
def netDebtErrors (i : Inputs) : List String :=
  if !i.netDebtYen.isFinite then ["Invalid net debt: " ++ i.netDebtYen.toStr] else []

/-- The list of all methods, i.e. the possible keys of `evByMethod`. -/
def allMethods : List Method := [.evSales, .evEbitda, .pe]

/-- The number of EV entries that are present, finite and `> 0`
(`validEvMethods.length` in `validateInputs`). -/
def validEvCount (i : Inputs) : Nat :=
  (allMethods.filter (fun m =>
    match i.evByMethod m with
    | some ev => ev.isFinite && JNum.gtb ev (.fin 0)
    | none => false)).length

/-- JavaScript falsiness of `inputs.pePrice` (`!inputs.pePrice`): `undefined`,
`0` and `NaN` are falsy. -/
def peFalsy (i : Inputs) : Bool :=
  match i.pePrice with
  | none => true
  | some p => !p.truthy

/-- The error contribution of the no-valid-method rule of `validateInputs`:
`validEvMethods.length === 0 && !inputs.pePrice`. -/
def methodErrors (i : Inputs) : List String :=
  if validEvCount i == 0 && peFalsy i then ["No valid valuation methods provided"] else []

/-- The error contribution of the P/E-price rule of `validateInputs`. -/
def peErrors (i : Inputs) : List String :=
  match i.pePrice with
  | none => []
  | some p =>
      if !p.isFinite || JNum.leb p (.fin 0) then ["Invalid P/E price: " ++ p.toStr] else []

/-- The result of `validateInputs`. -/
structure ValidationOut where
  valid : Bool
  errors : List String
deriving DecidableEq, Repr

/-- `function validateInputs(inputs)`: all four rules are checked
independently and their error messages accumulated in order. -/
def validateInputs (i : Inputs) : ValidationOut :=
  let errors := sharesErrors i ++ netDebtErrors i ++ methodErrors i ++ peErrors i
  ⟨errors.length == 0, errors⟩

/-- The negative-equity warning pushed by `addBridge`
(`` `${method}: 株主価値が負になりました (EV: ${formatJPY(ev)}, ネット負債: ${formatJPY(inputs.netDebtYen)})` ``). -/
def negEquityWarning (m : Method) (ev netDebt : JNum) : String :=
  methodName m ++ (": 株主価値が負になりました (EV: " ++ (formatJPY ev ++
    (", ネット負債: " ++ (formatJPY netDebt ++ ")"))))

/-- The EV-method branch of `addBridge`: produces the bridge row and the
warnings it pushes.  Mirrors the source's guard
`ev === undefined || !Number.isFinite(ev) || ev <= 0`, the negative-equity
branch, and the used branch. -/
def evBridge (i : Inputs) (m : Method) (ev? : Option JNum) : Bridge × List String :=
  match ev? with
  | none => (⟨m, .nan, .nan, .nan, false, some "Invalid EV: undefined"⟩, [])
  | some ev =>
      if !ev.isFinite || JNum.leb ev (.fin 0) then
        (⟨m, .nan, .nan, .nan, false, some ("Invalid EV: " ++ ev.toStr)⟩, [])
      else
        let equity := JNum.sub ev i.netDebtYen
        if JNum.leb equity (.fin 0) then
          (⟨m, ev, equity, .fin 0, false, some ("Negative equity value: " ++ formatJPY equity)⟩,
            [negEquityWarning m ev i.netDebtYen])
        else
          (⟨m, ev, equity, JNum.div equity i.sharesOutstanding, true, none⟩, [])

/-- The P/E branch of `addBridge` (pushes no warnings). -/
def peBridge (i : Inputs) (p? : Option JNum) : Bridge :=
  match p? with
  | none => ⟨.pe, .nan, .nan, .nan, false, some "No valid P/E price provided"⟩
  | some p =>
      if !p.isFinite || JNum.leb p (.fin 0) then
        ⟨.pe, .nan, .nan, .nan, false, some "No valid P/E price provided"⟩
      else
        ⟨.pe, .nan, JNum.mul p i.sharesOutstanding, p, true, none⟩

/-- The bridge row pushed for EV/EBITDA when the special EBITDA guard fails. -/
def skipBridgeEbitda : Bridge :=
  ⟨.evEbitda, .nan, .nan, .nan, false, some "EBITDA <= 0 or invalid EV"⟩

/-- The EBITDA-skip warning. -/
def ebitdaSkipWarning : String := "EV/EBITDA手法をスキップ: EBITDA値が無効または負の値"

/-- The reweighting warning. -/
def reweightWarning : String := "EV/Sales手法の重みを調整しました"

/-- The zero-total-weight fallback warning pushed by the aggregation step. -/
def avgFallbackWarning : String := "重みが設定されていないため、平均値を使用"

/-- `bridges.find(b => b.method === 'EV/Sales')?.used` at the point where the
EBITDA special case runs: only the EV/Sales bridge has been pushed
(`?.` on a missing row yields `undefined`, which is falsy). -/
def evSalesUsed (i : Inputs) : Bool :=
  match [(evBridge i .evSales (i.evByMethod .evSales)).1].find?
      (fun b => b.method == Method.evSales) with
  | some b => b.used
  | none => false

/-- The EV/EBITDA bridge row: the generic EV bridge when the special guard
`evEbitda !== undefined && evEbitda > 0` passes, the skip row otherwise. -/
def ebitdaBridgeOf (i : Inputs) : Bridge :=
  match i.evByMethod .evEbitda with
  | some v => if JNum.gtb v (.fin 0) then (evBridge i .evEbitda (some v)).1 else skipBridgeEbitda
  | none => skipBridgeEbitda

/-- The weight table after the EBITDA special case
(`weights['EV/Sales'] += weights['EV/EBITDA']; weights['EV/EBITDA'] = 0`). -/
def adjustedWeights (i : Inputs) : Method → JNum := fun m =>
  match m with
  | .evSales => JNum.add (mergedWeights i .evSales) (mergedWeights i .evEbitda)
  | .evEbitda => .fin 0
  | .pe => mergedWeights i .pe

/-- The final weight table: adjusted exactly when the EBITDA guard failed on a
defined value and the EV/Sales bridge is used. -/
def finalWeights (i : Inputs) : Method → JNum :=
  match i.evByMethod .evEbitda with
  | none => mergedWeights i
  | some v =>
      if JNum.gtb v (.fin 0) then mergedWeights i
      else if evSalesUsed i then adjustedWeights i
      else mergedWeights i

/-- The warnings pushed by the EBITDA special case: none when the guard
passes (beyond those of the generic EV bridge) or when the value is absent;
the skip warning when a defined value fails the guard, followed by the
reweighting warning when EV/Sales is used. -/
def ebitdaWarnings (i : Inputs) : List String :=
  match i.evByMethod .evEbitda with
  | none => []
  | some v =>
      if JNum.gtb v (.fin 0) then (evBridge i .evEbitda (some v)).2
      else if evSalesUsed i then [ebitdaSkipWarning, reweightWarning]
      else [ebitdaSkipWarning]

/-- The bridge-building phase of `computeValuation` (run only on validated
inputs): the three bridges in push order EV/Sales, EV/EBITDA, P/E, the final
weight table, and the warnings pushed so far, in push order. -/
def computeCore (i : Inputs) : List Bridge × (Method → JNum) × List String :=
  ([(evBridge i .evSales (i.evByMethod .evSales)).1, ebitdaBridgeOf i, peBridge i i.pePrice],
    finalWeights i,
    (evBridge i .evSales (i.evByMethod .evSales)).2 ++ ebitdaWarnings i)

/-- JavaScript `x || 0` on a number: `0` and `NaN` collapse to `0`. -/
def orZero (x : JNum) : JNum := if x.truthy then x else .fin 0

/-- The aggregation phase of `computeValuation`: summary statistics over the
used bridges plus the warnings pushed by the weighted-average fallback. -/
def aggregate (bridges : List Bridge) (w : Method → JNum) : Summary × List String :=
  let validBridges := bridges.filter (fun b => b.used)
  let prices := validBridges.map (fun b => b.PricePerShare)
  let avg :=
    if 0 < prices.length then
      JNum.div (prices.foldl JNum.add (.fin 0)) (.fin (prices.length : ℚ))
    else .nan
  let medianValue := if 0 < prices.length then median prices else .nan
  let wpair :=
    if 0 < prices.length then
      let totalWeight := validBridges.foldl (fun s b => JNum.add s (orZero (w b.method))) (.fin 0)
      if JNum.gtb totalWeight (.fin 0) then
        (validBridges.foldl
          (fun s b => JNum.add s (JNum.mul b.PricePerShare (JNum.div (orZero (w b.method)) totalWeight)))
          (.fin 0), ([] : List String))
      else (avg, [avgFallbackWarning])
    else (.nan, [])
  let range :=
    if 0 < prices.length then (prices.foldl JNum.jmin .posInf, prices.foldl JNum.jmax .negInf)
    else (JNum.nan, JNum.nan)
  (⟨avg, medianValue, wpair.1, range, validBridges.length, validBridges.map (fun b => b.method)⟩,
    wpair.2)

/-- The all-`NaN` summary returned when validation fails. -/
def nanSummary : Summary := ⟨.nan, .nan, .nan, (.nan, .nan), 0, []⟩

/-- `export function computeValuation(inputs)`. -/
def computeValuation (i : Inputs) : ValuationResult :=
  let v := validateInputs i
  if v.valid then
    let core := computeCore i
    let agg := aggregate core.1 core.2.1
    ⟨core.1, agg.1, i, core.2.2 ++ agg.2, [],
      decide (0 < (core.1.filter (fun b => b.used)).length)⟩
  else
    ⟨[], nanSummary, i, [], v.errors, false⟩

/-- JavaScript truthiness of an optional number (`if (baseEV)` /
`if (baseInputs.pePrice)`). -/
def truthyOpt : Option JNum → Bool
  | none => false
  | some x => x.truthy

/-- The two scenarios perturbing one EV method by `(1 ± variation)`, emitted
only when the base value is truthy. -/
def methodScenarios (base : Inputs) (m : Method) (variation : JNum) :
    List (String × Inputs) :=
  match base.evByMethod m with
  | none => []
  | some baseEV =>
      if baseEV.truthy then
        [(methodName m ++ " +" ++ toFixed0 (JNum.mul variation (.fin 100)) ++ "%",
            { base with evByMethod := fun m' =>
                if m' = m then some (JNum.mul baseEV (JNum.add (.fin 1) variation))
                else base.evByMethod m' }),
          (methodName m ++ " -" ++ toFixed0 (JNum.mul variation (.fin 100)) ++ "%",
            { base with evByMethod := fun m' =>
                if m' = m then some (JNum.mul baseEV (JNum.sub (.fin 1) variation))
                else base.evByMethod m' })]
      else []

/-- `export function generateSensitivityScenarios(baseInputs, netDebtVariation, multipleVariation)`. -/
def generateSensitivityScenarios (base : Inputs) (netDebtVariation multipleVariation : JNum) :
    List (String × Inputs) :=
  [("Base Case", base),
    ("ネット負債 +" ++ toFixed0 (JNum.mul netDebtVariation (.fin 100)) ++ "%",
      { base with netDebtYen := JNum.mul base.netDebtYen (JNum.add (.fin 1) netDebtVariation) }),
    ("ネット負債 -" ++ toFixed0 (JNum.mul netDebtVariation (.fin 100)) ++ "%",
      { base with netDebtYen := JNum.mul base.netDebtYen (JNum.sub (.fin 1) netDebtVariation) })]
  ++ methodScenarios base .evSales multipleVariation
  ++ methodScenarios base .evEbitda multipleVariation
  ++ (match base.pePrice with
      | none => []
      | some p =>
          if p.truthy then
            [("P/E +" ++ toFixed0 (JNum.mul multipleVariation (.fin 100)) ++ "%",
                { base with pePrice := some (JNum.mul p (JNum.add (.fin 1) multipleVariation)) }),
              ("P/E -" ++ toFixed0 (JNum.mul multipleVariation (.fin 100)) ++ "%",
                { base with pePrice := some (JNum.mul p (JNum.sub (.fin 1) multipleVariation)) })]
          else [])


/-! ### Basic facts about `JNum` -/

theorem JNum.isFinite_eq_true {x : JNum} (h : x.isFinite = true) : x = .fin x.ratOf := by
  cases x <;> simp [JNum.isFinite] at h ⊢ <;> rfl

theorem JNum.leb_fin_fin (a b : ℚ) : JNum.leb (.fin a) (.fin b) = decide (a ≤ b) := rfl

theorem JNum.gtb_fin_fin (a b : ℚ) : JNum.gtb (.fin a) (.fin b) = decide (b < a) := rfl

theorem JNum.add_comm (a b : JNum) : JNum.add a b = JNum.add b a := by
  cases a <;> cases b <;> simp [JNum.add] <;> ring

theorem JNum.add_fin (a b : ℚ) : JNum.add (.fin a) (.fin b) = .fin (a + b) := rfl

theorem JNum.sub_fin (a b : ℚ) : JNum.sub (.fin a) (.fin b) = .fin (a - b) := by
  simp [JNum.sub, JNum.neg, JNum.add]; ring

theorem JNum.div_fin {a b : ℚ} (hb : b ≠ 0) : JNum.div (.fin a) (.fin b) = .fin (a / b) := by
  simp [JNum.div, hb]

theorem JNum.mul_fin (a b : ℚ) : JNum.mul (.fin a) (.fin b) = .fin (a * b) := rfl

theorem JNum.jmin_fin (a b : ℚ) : JNum.jmin (.fin a) (.fin b) = .fin (min a b) := rfl

theorem JNum.jmax_fin (a b : ℚ) : JNum.jmax (.fin a) (.fin b) = .fin (max a b) := rfl

/-! ### String disagreement helpers

Messages produced by distinct rules have distinct literal prefixes; these
lemmas let a single disagreeing character position separate two messages even
when their suffixes are symbolic. -/

theorem str_ne_of_get (k : Nat) {s t : String} (h : s.data[k]? ≠ t.data[k]?) : s ≠ t :=
  fun he => h (by rw [he])

theorem append_ne_right {p x t : String} (k : Nat) (hk : k < p.data.length)
    (h : p.data[k]? ≠ t.data[k]?) : (p ++ x) ≠ t := by
  apply str_ne_of_get k
  rw [String.data_append, List.getElem?_append_left hk]
  exact h

theorem ne_append_left {p x t : String} (k : Nat) (hk : k < p.data.length)
    (h : p.data[k]? ≠ t.data[k]?) : t ≠ (p ++ x) :=
  (append_ne_right k hk h).symm

theorem append_ne_append {p q x y : String} (k : Nat) (hp : k < p.data.length)
    (hq : k < q.data.length) (h : p.data[k]? ≠ q.data[k]?) : (p ++ x) ≠ (q ++ y) := by
  apply str_ne_of_get k
  rw [String.data_append, String.data_append, List.getElem?_append_left hp,
    List.getElem?_append_left hq]
  exact h

theorem str_append_assoc (a b c : String) : (a ++ b) ++ c = a ++ (b ++ c) :=
  String.ext (by simp [String.data_append])

/-- The negative-equity warning, with the method name merged into the leading
literal. -/
theorem negEquityWarning_evSales (ev nd : JNum) :
    negEquityWarning .evSales ev nd =
      "EV/Sales: 株主価値が負になりました (EV: " ++
        (formatJPY ev ++ (", ネット負債: " ++ (formatJPY nd ++ ")"))) := by
  unfold negEquityWarning
  rw [show (methodName Method.evSales) = "EV/Sales" from rfl, ← str_append_assoc]
  rfl

theorem negEquityWarning_evEbitda (ev nd : JNum) :
    negEquityWarning .evEbitda ev nd =
      "EV/EBITDA: 株主価値が負になりました (EV: " ++
        (formatJPY ev ++ (", ネット負債: " ++ (formatJPY nd ++ ")"))) := by
  unfold negEquityWarning
  rw [show (methodName Method.evEbitda) = "EV/EBITDA" from rfl, ← str_append_assoc]
  rfl

theorem negW_sales_ne_negW_ebitda (a b c d : JNum) :
    negEquityWarning .evSales a b ≠ negEquityWarning .evEbitda c d := by
  rw [negEquityWarning_evSales, negEquityWarning_evEbitda]
  exact append_ne_append 3 (by decide) (by decide) (by decide)

theorem negW_sales_ne_skip (a b : JNum) :
    negEquityWarning .evSales a b ≠ ebitdaSkipWarning := by
  rw [negEquityWarning_evSales]
  exact append_ne_right 3 (by decide) (by decide)

theorem negW_sales_ne_reweight (a b : JNum) :
    negEquityWarning .evSales a b ≠ reweightWarning := by
  rw [negEquityWarning_evSales]
  exact append_ne_right 8 (by decide) (by decide)

theorem negW_sales_ne_fallback (a b : JNum) :
    negEquityWarning .evSales a b ≠ avgFallbackWarning := by
  rw [negEquityWarning_evSales]
  exact append_ne_right 0 (by decide) (by decide)

theorem negW_ebitda_ne_skip (a b : JNum) :
    negEquityWarning .evEbitda a b ≠ ebitdaSkipWarning := by
  rw [negEquityWarning_evEbitda]
  exact append_ne_right 9 (by decide) (by decide)

theorem negW_ebitda_ne_reweight (a b : JNum) :
    negEquityWarning .evEbitda a b ≠ reweightWarning := by
  rw [negEquityWarning_evEbitda]
  exact append_ne_right 3 (by decide) (by decide)

theorem negW_ebitda_ne_fallback (a b : JNum) :
    negEquityWarning .evEbitda a b ≠ avgFallbackWarning := by
  rw [negEquityWarning_evEbitda]
  exact append_ne_right 0 (by decide) (by decide)


/-! ### Characterizing validation -/

theorem validateInputs_errors (i : Inputs) :
    (validateInputs i).errors =
      sharesErrors i ++ netDebtErrors i ++ methodErrors i ++ peErrors i := rfl

theorem validateInputs_valid_iff (i : Inputs) :
    (validateInputs i).valid = true ↔
      sharesErrors i = [] ∧ netDebtErrors i = [] ∧ methodErrors i = [] ∧ peErrors i = [] := by
  simp [validateInputs, List.length_eq_zero, List.append_eq_nil, and_assoc]

theorem shares_ok {i : Inputs} (h : sharesErrors i = []) :
    ∃ s : ℚ, i.sharesOutstanding = .fin s ∧ 0 < s := by
  unfold sharesErrors at h
  split at h
  · exact absurd h (by simp)
  · next hc =>
    cases hx : i.sharesOutstanding with
    | fin q =>
        refine ⟨q, rfl, ?_⟩
        rw [hx] at hc
        simpa [JNum.isFinite, JNum.leb] using hc
    | posInf => rw [hx] at hc; simp [JNum.isFinite] at hc
    | negInf => rw [hx] at hc; simp [JNum.isFinite] at hc
    | nan => rw [hx] at hc; simp [JNum.isFinite] at hc

theorem netDebt_ok {i : Inputs} (h : netDebtErrors i = []) :
    ∃ d : ℚ, i.netDebtYen = .fin d := by
  unfold netDebtErrors at h
  split at h
  · exact absurd h (by simp)
  · next hc =>
    cases hx : i.netDebtYen with
    | fin q => exact ⟨q, rfl⟩
    | posInf => rw [hx] at hc; simp [JNum.isFinite] at hc
    | negInf => rw [hx] at hc; simp [JNum.isFinite] at hc
    | nan => rw [hx] at hc; simp [JNum.isFinite] at hc

theorem pe_ok {i : Inputs} (h : peErrors i = []) :
    ∀ p, i.pePrice = some p → ∃ q : ℚ, p = .fin q ∧ 0 < q := by
  intro p hp
  simp only [peErrors, hp] at h
  cases p with
  | fin q =>
      refine ⟨q, rfl, ?_⟩
      by_contra hq
      push_neg at hq
      simp [JNum.isFinite, JNum.leb, hq] at h
  | posInf => simp [JNum.isFinite] at h
  | negInf => simp [JNum.isFinite] at h
  | nan => simp [JNum.isFinite] at h

/-! ### Shape of the bridge-building phase -/

theorem evBridge_method (i : Inputs) (m : Method) (e : Option JNum) :
    (evBridge i m e).1.method = m := by
  unfold evBridge
  rcases e with _ | ev
  · rfl
  · dsimp only
    split
    · rfl
    · split <;> rfl

theorem evSalesUsed_eq (i : Inputs) :
    evSalesUsed i = (evBridge i .evSales (i.evByMethod .evSales)).1.used := by
  unfold evSalesUsed
  rw [List.find?_cons_of_pos _ (by simp [evBridge_method])]

theorem computeValuation_valid {i : Inputs} (hv : (validateInputs i).valid = true) :
    computeValuation i =
      ⟨(computeCore i).1,
        (aggregate (computeCore i).1 (computeCore i).2.1).1, i,
        (computeCore i).2.2 ++ (aggregate (computeCore i).1 (computeCore i).2.1).2, [],
        decide (0 < (((computeCore i).1).filter (fun b => b.used)).length)⟩ := by
  simp [computeValuation, hv]

theorem computeValuation_invalid {i : Inputs} (hv : (validateInputs i).valid = false) :
    computeValuation i = ⟨[], nanSummary, i, [], (validateInputs i).errors, false⟩ := by
  simp [computeValuation, hv]

/-! ### Concrete inputs used by witnesses and counterexamples -/

/-- The demo/test inputs: 1,000,000 shares, 3.79bn net debt, EV/Sales 5.062bn,
EV/EBITDA 4.86bn, P/E price 1,234. -/
def demoInputs : Inputs :=
  { sharesOutstanding := .fin 1000000
    netDebtYen := .fin 3790000000
    evByMethod := fun m => match m with
      | .evSales => some (.fin 5062000000)
      | .evEbitda => some (.fin 4860000000)
      | .pe => none
    pePrice := some (.fin 1234)
    weights := fun _ => none }

/-- Invalid inputs of the validator test: negative shares, NaN net debt, no
methods. -/
def invalidInputs : Inputs :=
  { sharesOutstanding := .fin (-1000), netDebtYen := .nan,
    evByMethod := fun _ => none, pePrice := none, weights := fun _ => none }

/-- Debt exceeding EV: negative equity on the EV/Sales bridge. -/
def negEquityInputs : Inputs :=
  { sharesOutstanding := .fin 1000000
    netDebtYen := .fin 10000000000
    evByMethod := fun m => match m with
      | .evSales => some (.fin 5000000000)
      | _ => none
    pePrice := none
    weights := fun _ => none }

/-- A negative EV/EBITDA value next to a valid EV/Sales value. -/
def ebitdaNegInputs : Inputs :=
  { sharesOutstanding := .fin 1000000
    netDebtYen := .fin 3790000000
    evByMethod := fun m => match m with
      | .evSales => some (.fin 5000000000)
      | .evEbitda => some (.fin (-1000000000))
      | .pe => none
    pePrice := some (.fin 1234)
    weights := fun _ => none }

/-- A defined but non-finite (`Infinity`) EV/EBITDA value next to a valid
EV/Sales value. -/
def ebitdaInfInputs : Inputs :=
  { sharesOutstanding := .fin 1000000
    netDebtYen := .fin 3790000000
    evByMethod := fun m => match m with
      | .evSales => some (.fin 5000000000)
      | .evEbitda => some .posInf
      | .pe => none
    pePrice := some (.fin 1234)
    weights := fun _ => none }

/-- No EV entries and a defined-but-zero P/E price. -/
def peZeroInputs : Inputs :=
  { sharesOutstanding := .fin 1000, netDebtYen := .fin 0,
    evByMethod := fun _ => none, pePrice := some (.fin 0), weights := fun _ => none }

/-- A defined-but-zero EV/Sales entry, nothing else. -/
def evZeroBase : Inputs :=
  { sharesOutstanding := .fin 1000000, netDebtYen := .fin 1000000000,
    evByMethod := fun m => match m with
      | .evSales => some (.fin 0)
      | _ => none
    pePrice := none, weights := fun _ => none }

/-- Only EV/Sales (positive), no EV/EBITDA, no P/E. -/
def onlySalesBase : Inputs :=
  { sharesOutstanding := .fin 1000000, netDebtYen := .fin 1000000000,
    evByMethod := fun m => match m with
      | .evSales => some (.fin 3000000000)
      | _ => none
    pePrice := none, weights := fun _ => none }


/-! ### Path lemmas for the bridge builder -/

theorem leb_zero_of_gtb {x : JNum} (h : JNum.gtb x (.fin 0) = true) :
    JNum.leb x (.fin 0) = false := by
  cases x <;> simp [JNum.gtb, JNum.ltb, JNum.leb] at h ⊢ <;> linarith

theorem evBridge_used_eq {i : Inputs} {m : Method} {ev : JNum}
    (hf : ev.isFinite = true) (hpos : JNum.gtb ev (.fin 0) = true)
    (hgt : JNum.gtb (JNum.sub ev i.netDebtYen) (.fin 0) = true) :
    evBridge i m (some ev) =
      (⟨m, ev, JNum.sub ev i.netDebtYen,
        JNum.div (JNum.sub ev i.netDebtYen) i.sharesOutstanding, true, none⟩, []) := by
  cases ev with
  | fin e =>
      have he : (0:ℚ) < e := by simpa [JNum.gtb, JNum.ltb] using hpos
      have h1 : (!(JNum.fin e).isFinite || JNum.leb (.fin e) (.fin 0)) = false := by
        simp [JNum.isFinite, JNum.leb]
        linarith
      simp [evBridge, h1, leb_zero_of_gtb hgt]
  | posInf => simp [JNum.isFinite] at hf
  | negInf => simp [JNum.isFinite] at hf
  | nan => simp [JNum.isFinite] at hf

theorem evBridge_negEquity_eq {i : Inputs} {m : Method} {ev : JNum}
    (hf : ev.isFinite = true) (hpos : JNum.gtb ev (.fin 0) = true)
    (hle : JNum.leb (JNum.sub ev i.netDebtYen) (.fin 0) = true) :
    evBridge i m (some ev) =
      (⟨m, ev, JNum.sub ev i.netDebtYen, .fin 0, false,
        some ("Negative equity value: " ++ formatJPY (JNum.sub ev i.netDebtYen))⟩,
        [negEquityWarning m ev i.netDebtYen]) := by
  cases ev with
  | fin e =>
      have he : (0:ℚ) < e := by simpa [JNum.gtb, JNum.ltb] using hpos
      have h1 : (!(JNum.fin e).isFinite || JNum.leb (.fin e) (.fin 0)) = false := by
        simp [JNum.isFinite, JNum.leb]
        linarith
      simp [evBridge, h1, hle]
  | posInf => simp [JNum.isFinite] at hf
  | negInf => simp [JNum.isFinite] at hf
  | nan => simp [JNum.isFinite] at hf

/-! ### C1 -/

/-- C1: for every `Inputs` record, if validation passed then `success` equals
"the number of used bridges is positive"; if validation failed then `success`
is `false`, the bridge list is empty and the summary is the all-`NaN` summary
with `validMethodCount 0` and no used methods — never partially populated. -/
theorem c1_success_invariant :
    ∀ i : Inputs,
      ((validateInputs i).valid = true →
        (computeValuation i).success =
          decide (0 < ((computeValuation i).bridges.filter (fun b => b.used)).length))
      ∧ ((validateInputs i).valid = false →
          (computeValuation i).success = false ∧ (computeValuation i).bridges = [] ∧
            (computeValuation i).summary = nanSummary) := by
  intro i
  constructor
  · intro hv
    rw [computeValuation_valid hv]
  · intro hv
    rw [computeValuation_invalid hv]
    exact ⟨rfl, rfl, rfl⟩

/-- Witness for C1 at the demo inputs (validation passes there). -/
theorem c1_success_invariant_witness :
    (validateInputs demoInputs).valid = true ∧
    (computeValuation demoInputs).success =
      decide (0 < ((computeValuation demoInputs).bridges.filter (fun b => b.used)).length) :=
  ⟨by decide, (c1_success_invariant demoInputs).1 (by decide)⟩

/-! ### C2 -/

/-- C2: for every validated input and every EV-based method whose EV figure is
finite and positive with positive equity `EV - netDebt`, the produced bridge
has `Equity = EV - netDebt`, `PricePerShare = (EV - netDebt)/shares` and
`used = true`; at the demo inputs the three used prices are 1272, 1070, 1234
and `validMethodCount = 3`. -/
theorem c2_ev_bridge_values :
    (∀ (i : Inputs) (m : Method) (ev : JNum),
      (validateInputs i).valid = true → m ≠ .pe →
      i.evByMethod m = some ev → ev.isFinite = true →
      JNum.gtb ev (.fin 0) = true →
      JNum.gtb (JNum.sub ev i.netDebtYen) (.fin 0) = true →
      (computeValuation i).bridges.find? (fun b => b.method == m) =
        some ⟨m, ev, JNum.sub ev i.netDebtYen,
          JNum.div (JNum.sub ev i.netDebtYen) i.sharesOutstanding, true, none⟩)
    ∧ ((computeValuation demoInputs).bridges.filter (fun b => b.used)).map
        (fun b => b.PricePerShare) = [.fin 1272, .fin 1070, .fin 1234]
    ∧ (computeValuation demoInputs).summary.validMethodCount = 3 := by
  refine ⟨?_, by decide, by decide⟩
  intro i m ev hv hm hev hf hpos hgt
  rw [computeValuation_valid hv]
  dsimp only [computeCore]
  cases m with
  | pe => exact absurd rfl hm
  | evSales =>
      rw [hev, evBridge_used_eq hf hpos hgt]
      rw [List.find?_cons_of_pos _ (by simp)]
  | evEbitda =>
      rw [List.find?_cons_of_neg _ (by simp [evBridge_method])]
      unfold ebitdaBridgeOf
      rw [hev]
      dsimp only
      rw [if_pos hpos, evBridge_used_eq hf hpos hgt]
      rw [List.find?_cons_of_pos _ (by simp)]

/-- Witness for C2 at the demo inputs, EV/Sales method. -/
theorem c2_ev_bridge_values_witness :
    (computeValuation demoInputs).bridges.find? (fun b => b.method == Method.evSales) =
      some ⟨.evSales, .fin 5062000000, JNum.sub (.fin 5062000000) demoInputs.netDebtYen,
        JNum.div (JNum.sub (.fin 5062000000) demoInputs.netDebtYen) demoInputs.sharesOutstanding,
        true, none⟩ :=
  c2_ev_bridge_values.1 demoInputs .evSales (.fin 5062000000) (by decide) (by decide) rfl
    (by decide) (by decide) (by decide)


/-! ### Distinctness of validator messages -/

theorem sharesMsg_ne_netDebtMsg (x y : String) :
    ("Invalid shares outstanding: " ++ x) ≠ ("Invalid net debt: " ++ y) :=
  append_ne_append 8 (by decide) (by decide) (by decide)

theorem sharesMsg_ne_noValidMsg (x : String) :
    ("Invalid shares outstanding: " ++ x) ≠ "No valid valuation methods provided" :=
  append_ne_right 0 (by decide) (by decide)

theorem sharesMsg_ne_peMsg (x y : String) :
    ("Invalid shares outstanding: " ++ x) ≠ ("Invalid P/E price: " ++ y) :=
  append_ne_append 8 (by decide) (by decide) (by decide)

theorem netDebtMsg_ne_noValidMsg (x : String) :
    ("Invalid net debt: " ++ x) ≠ "No valid valuation methods provided" :=
  append_ne_right 0 (by decide) (by decide)

theorem netDebtMsg_ne_peMsg (x y : String) :
    ("Invalid net debt: " ++ x) ≠ ("Invalid P/E price: " ++ y) :=
  append_ne_append 8 (by decide) (by decide) (by decide)

theorem noValidMsg_ne_peMsg (y : String) :
    "No valid valuation methods provided" ≠ ("Invalid P/E price: " ++ y) :=
  ne_append_left 0 (by decide) (by decide)

theorem noValidMsg_notin_sharesErrors (i : Inputs) :
    "No valid valuation methods provided" ∉ sharesErrors i := by
  unfold sharesErrors
  split
  · simp only [List.mem_singleton]
    exact (sharesMsg_ne_noValidMsg _).symm
  · simp

theorem noValidMsg_notin_netDebtErrors (i : Inputs) :
    "No valid valuation methods provided" ∉ netDebtErrors i := by
  unfold netDebtErrors
  split
  · simp only [List.mem_singleton]
    exact (netDebtMsg_ne_noValidMsg _).symm
  · simp

theorem noValidMsg_notin_peErrors (i : Inputs) :
    "No valid valuation methods provided" ∉ peErrors i := by
  unfold peErrors
  cases i.pePrice with
  | none => simp
  | some p =>
      dsimp only
      split
      · simp only [List.mem_singleton]
        exact noValidMsg_ne_peMsg _
      · simp

/-! ### C4 -/

/-- C4 counterexample: with no EV entries and a defined P/E price of 0 the
claim demands that `No valid valuation methods provided` not be emitted, but
the validator tests `!inputs.pePrice` (truthiness), so the error is emitted. -/
theorem c4_claim_counterexample :
    peZeroInputs.pePrice = some (.fin 0) ∧
      "No valid valuation methods provided" ∈ (validateInputs peZeroInputs).errors :=
  ⟨rfl, by decide⟩

/-- C4 (amended): the validator emits `No valid valuation methods provided`
exactly when no EV entry is finite and positive AND the P/E price is falsy
(absent, `0`, or `NaN`); a defined but falsy P/E price (0 or NaN) does not
suppress the error. -/
theorem c4_no_valid_methods_iff :
    ∀ i : Inputs,
      ("No valid valuation methods provided" ∈ (validateInputs i).errors) ↔
        (validEvCount i = 0 ∧ peFalsy i = true) := by
  intro i
  rw [validateInputs_errors]
  simp only [List.mem_append]
  constructor
  · rintro (((h | h) | h) | h)
    · exact absurd h (noValidMsg_notin_sharesErrors i)
    · exact absurd h (noValidMsg_notin_netDebtErrors i)
    · unfold methodErrors at h
      split at h
      · next hc =>
          simp only [Bool.and_eq_true, beq_iff_eq] at hc
          exact hc
      · simp at h
    · exact absurd h (noValidMsg_notin_peErrors i)
  · rintro ⟨h1, h2⟩
    refine Or.inl (Or.inr ?_)
    unfold methodErrors
    rw [if_pos (by simp [h1, h2])]
    simp


theorem mem_ite_singleton {c : Prop} [Decidable c] (m : String) :
    m ∈ (if c then [m] else []) ↔ c := by
  split <;> simp_all

theorem notin_ite_singleton {c : Prop} [Decidable c] {m m' : String} (h : m ≠ m') :
    m ∉ (if c then [m'] else []) := by
  split <;> simp [h]

/-! ### C6 -/

/-- C6: the validator checks its rules independently — each rule's message is
in the error list exactly when that rule's own condition fails, regardless of
the other fields — and on any validation failure `computeValuation` returns
every collected error with an empty warnings list; at shares `-1000`, net debt
`NaN`, no methods, the errors are exactly the three corresponding messages. -/
theorem c6_validator_independent :
    (∀ i : Inputs,
      ((("Invalid shares outstanding: " ++ i.sharesOutstanding.toStr) ∈
          (validateInputs i).errors) ↔
        (!i.sharesOutstanding.isFinite || JNum.leb i.sharesOutstanding (.fin 0)) = true)
      ∧ ((("Invalid net debt: " ++ i.netDebtYen.toStr) ∈ (validateInputs i).errors) ↔
          (!i.netDebtYen.isFinite) = true)
      ∧ (("No valid valuation methods provided" ∈ (validateInputs i).errors) ↔
          (validEvCount i == 0 && peFalsy i) = true)
      ∧ (∀ p, i.pePrice = some p →
          ((("Invalid P/E price: " ++ p.toStr) ∈ (validateInputs i).errors) ↔
            (!p.isFinite || JNum.leb p (.fin 0)) = true)))
    ∧ (∀ i : Inputs, (validateInputs i).valid = false →
        (computeValuation i).errors = (validateInputs i).errors ∧
          (computeValuation i).warnings = [] ∧ (computeValuation i).success = false)
    ∧ (validateInputs invalidInputs).errors =
        ["Invalid shares outstanding: -1000", "Invalid net debt: NaN",
          "No valid valuation methods provided"]
    ∧ (computeValuation invalidInputs).warnings = [] := by
  refine ⟨?_, ?_, by decide, ?_⟩
  · intro i
    refine ⟨?_, ?_, ?_, ?_⟩
    · rw [validateInputs_errors]
      unfold sharesErrors netDebtErrors methodErrors peErrors
      simp only [List.mem_append]
      constructor
      · rintro (((h | h) | h) | h)
        · exact (mem_ite_singleton _).mp h
        · exact absurd h (notin_ite_singleton (sharesMsg_ne_netDebtMsg _ _))
        · exact absurd h (notin_ite_singleton (sharesMsg_ne_noValidMsg _))
        · rcases hp : i.pePrice with _ | p
          · rw [hp] at h
            simp at h
          · rw [hp] at h
            exact absurd h (notin_ite_singleton (sharesMsg_ne_peMsg _ _))
      · intro hc
        exact Or.inl (Or.inl (Or.inl ((mem_ite_singleton _).mpr hc)))
    · rw [validateInputs_errors]
      unfold sharesErrors netDebtErrors methodErrors peErrors
      simp only [List.mem_append]
      constructor
      · rintro (((h | h) | h) | h)
        · exact absurd h (notin_ite_singleton (sharesMsg_ne_netDebtMsg _ _).symm)
        · exact (mem_ite_singleton _).mp h
        · exact absurd h (notin_ite_singleton (netDebtMsg_ne_noValidMsg _))
        · rcases hp : i.pePrice with _ | p
          · rw [hp] at h
            simp at h
          · rw [hp] at h
            exact absurd h (notin_ite_singleton (netDebtMsg_ne_peMsg _ _))
      · intro hc
        exact Or.inl (Or.inl (Or.inr ((mem_ite_singleton _).mpr hc)))
    · rw [c4_no_valid_methods_iff i]
      simp
    · intro p hp
      rw [validateInputs_errors]
      unfold sharesErrors netDebtErrors methodErrors peErrors
      rw [hp]
      simp only [List.mem_append]
      constructor
      · rintro (((h | h) | h) | h)
        · exact absurd h (notin_ite_singleton (sharesMsg_ne_peMsg _ _).symm)
        · exact absurd h (notin_ite_singleton (netDebtMsg_ne_peMsg _ _).symm)
        · exact absurd h (notin_ite_singleton (noValidMsg_ne_peMsg _).symm)
        · exact (mem_ite_singleton _).mp h
      · intro hc
        exact Or.inr ((mem_ite_singleton _).mpr hc)
  · intro i hv
    rw [computeValuation_invalid hv]
    exact ⟨rfl, rfl, rfl⟩
  · rw [computeValuation_invalid (by decide)]

/-- Witness for C6 at the concrete invalid inputs. -/
theorem c6_validator_independent_witness :
    (validateInputs invalidInputs).valid = false ∧
      (computeValuation invalidInputs).errors = (validateInputs invalidInputs).errors ∧
      (computeValuation invalidInputs).warnings = [] ∧
      (computeValuation invalidInputs).success = false :=
  ⟨by decide, c6_validator_independent.2.1 invalidInputs (by decide)⟩


/-! ### C8 -/

/-- The number of EV methods whose base entry is truthy (defined, nonzero,
non-NaN) — what the scenario generator actually tests (`if (baseEV)`). -/
def countTruthyEv (i : Inputs) : Nat :=
  ([Method.evSales, Method.evEbitda].filter (fun m => truthyOpt (i.evByMethod m))).length

/-- Spec-side count for the C8 claim, following the claim's words: EV methods
with a *defined* EV value in the base inputs. -/
def countDefinedEv (i : Inputs) : Nat :=
  ([Method.evSales, Method.evEbitda].filter (fun m => (i.evByMethod m).isSome)).length

/-- C8 counterexample: with EV/Sales defined as `0` (and nothing else), the
claim's law `1 + 2 + 2·(defined EV methods) + 0` predicts 5 scenarios, but the
generator tests truthiness (`if (baseEV)`), so a defined-but-zero entry
produces no scenarios and only 3 are returned. -/
theorem c8_claim_counterexample :
    evZeroBase.evByMethod .evSales = some (.fin 0) ∧
      evZeroBase.pePrice = none ∧
      countDefinedEv evZeroBase = 1 ∧
      (generateSensitivityScenarios evZeroBase (.fin (1/10)) (.fin (1/10))).length = 3 ∧
      (3 : Nat) ≠ 1 + 2 + 2 * countDefinedEv evZeroBase + 0 :=
  ⟨rfl, rfl, by decide, by decide, by decide⟩

theorem methodScenarios_length (base : Inputs) (m : Method) (v : JNum) :
    (methodScenarios base m v).length =
      if truthyOpt (base.evByMethod m) then 2 else 0 := by
  unfold methodScenarios truthyOpt
  rcases base.evByMethod m with _ | x
  · simp
  · dsimp only
    split <;> simp_all

theorem countTruthyEv_eq (base : Inputs) :
    countTruthyEv base =
      (if truthyOpt (base.evByMethod .evSales) then 1 else 0) +
        (if truthyOpt (base.evByMethod .evEbitda) then 1 else 0) := by
  unfold countTruthyEv
  cases h1 : truthyOpt (base.evByMethod .evSales) <;>
    cases h2 : truthyOpt (base.evByMethod .evEbitda) <;>
    simp [List.filter_cons, h1, h2]

/-- C8 (amended): the generator returns exactly
`1 + 2 + 2·(count of EV methods whose base entry is truthy) + (2 if pePrice is
truthy else 0)` scenarios — truthy meaning defined, nonzero and non-NaN, so a
defined-but-zero/NaN entry generates no scenarios while a negative one does —
and, for every base input, the scenario list is exactly: the unmodified base
case labeled "Base Case" first, then the net-debt up/down pair, then the
EV/Sales up/down pair (when that entry is truthy), then the EV/EBITDA up/down
pair (when that entry is truthy), then the P/E up/down pair (when pePrice is
truthy), each scenario perturbing only its own driver; with only EV/Sales
defined and positive, exactly 5 scenarios in the order base, net-debt up/down,
EV/Sales up/down. -/
theorem c8_scenario_count :
    (∀ (base : Inputs) (ndVar mVar : JNum),
      (generateSensitivityScenarios base ndVar mVar).length =
        1 + 2 + 2 * countTruthyEv base + (if truthyOpt base.pePrice then 2 else 0)
      ∧ (generateSensitivityScenarios base ndVar mVar).head? = some ("Base Case", base)
      ∧ generateSensitivityScenarios base ndVar mVar =
          [("Base Case", base),
            ("ネット負債 +" ++ toFixed0 (JNum.mul ndVar (.fin 100)) ++ "%",
              { base with netDebtYen := JNum.mul base.netDebtYen (JNum.add (.fin 1) ndVar) }),
            ("ネット負債 -" ++ toFixed0 (JNum.mul ndVar (.fin 100)) ++ "%",
              { base with netDebtYen := JNum.mul base.netDebtYen (JNum.sub (.fin 1) ndVar) })]
          ++ (match base.evByMethod .evSales with
              | none => []
              | some baseEV =>
                  if baseEV.truthy then
                    [("EV/Sales +" ++ toFixed0 (JNum.mul mVar (.fin 100)) ++ "%",
                        { base with evByMethod := fun m' =>
                            if m' = Method.evSales then some (JNum.mul baseEV (JNum.add (.fin 1) mVar))
                            else base.evByMethod m' }),
                      ("EV/Sales -" ++ toFixed0 (JNum.mul mVar (.fin 100)) ++ "%",
                        { base with evByMethod := fun m' =>
                            if m' = Method.evSales then some (JNum.mul baseEV (JNum.sub (.fin 1) mVar))
                            else base.evByMethod m' })]
                  else [])
          ++ (match base.evByMethod .evEbitda with
              | none => []
              | some baseEV =>
                  if baseEV.truthy then
                    [("EV/EBITDA +" ++ toFixed0 (JNum.mul mVar (.fin 100)) ++ "%",
                        { base with evByMethod := fun m' =>
                            if m' = Method.evEbitda then some (JNum.mul baseEV (JNum.add (.fin 1) mVar))
                            else base.evByMethod m' }),
                      ("EV/EBITDA -" ++ toFixed0 (JNum.mul mVar (.fin 100)) ++ "%",
                        { base with evByMethod := fun m' =>
                            if m' = Method.evEbitda then some (JNum.mul baseEV (JNum.sub (.fin 1) mVar))
                            else base.evByMethod m' })]
                  else [])
          ++ (match base.pePrice with
              | none => []
              | some p =>
                  if p.truthy then
                    [("P/E +" ++ toFixed0 (JNum.mul mVar (.fin 100)) ++ "%",
                        { base with pePrice := some (JNum.mul p (JNum.add (.fin 1) mVar)) }),
                      ("P/E -" ++ toFixed0 (JNum.mul mVar (.fin 100)) ++ "%",
                        { base with pePrice := some (JNum.mul p (JNum.sub (.fin 1) mVar)) })]
                  else []))
    ∧ (generateSensitivityScenarios onlySalesBase (.fin (1/10)) (.fin (1/10))).map Prod.fst =
        ["Base Case", "ネット負債 +10%", "ネット負債 -10%", "EV/Sales +10%", "EV/Sales -10%"] := by
  refine ⟨?_, by decide⟩
  intro base ndVar mVar
  refine ⟨?_, rfl, rfl⟩
  have hpe : (match base.pePrice with
      | none => ([] : List (String × Inputs))
      | some p =>
          if p.truthy then
            [("P/E +" ++ toFixed0 (JNum.mul mVar (.fin 100)) ++ "%",
                { base with pePrice := some (JNum.mul p (JNum.add (.fin 1) mVar)) }),
              ("P/E -" ++ toFixed0 (JNum.mul mVar (.fin 100)) ++ "%",
                { base with pePrice := some (JNum.mul p (JNum.sub (.fin 1) mVar)) })]
          else []).length = if truthyOpt base.pePrice then 2 else 0 := by
    unfold truthyOpt
    rcases base.pePrice with _ | p
    · simp
    · dsimp only
      split <;> simp_all
  unfold generateSensitivityScenarios
  simp only [List.length_append, List.length_cons, List.length_nil, hpe,
    methodScenarios_length, countTruthyEv_eq]
  cases truthyOpt (base.evByMethod .evSales) <;>
    cases truthyOpt (base.evByMethod .evEbitda) <;>
    cases truthyOpt base.pePrice <;> simp


/-! ### Sorting lemmas for the median -/

theorem leb_trans {a b c : JNum} (h1 : JNum.leb a b = true) (h2 : JNum.leb b c = true) :
    JNum.leb a c = true := by
  cases a <;> cases b <;> cases c <;> simp_all [JNum.leb] <;> linarith

theorem leb_total_fin {a b : JNum} (ha : a.isFinite = true) (hb : b.isFinite = true)
    (h : JNum.leb a b = false) : JNum.leb b a = true := by
  cases a <;> cases b <;> simp_all [JNum.leb, JNum.isFinite] <;> linarith

theorem insertAsc_perm (x : JNum) (l : List JNum) : (insertAsc x l).Perm (x :: l) := by
  induction l with
  | nil => simp [insertAsc]
  | cons y ys ih =>
      unfold insertAsc
      split
      · exact List.Perm.refl _
      · exact ((ih.cons y).trans (List.Perm.swap x y ys))

theorem sortAsc_perm (l : List JNum) : (sortAsc l).Perm l := by
  induction l with
  | nil => simp [sortAsc]
  | cons x xs ih =>
      exact ((insertAsc_perm x (xs.foldr insertAsc [])).trans (ih.cons x))

theorem insertAsc_pairwise {x : JNum} :
    ∀ l : List JNum, x.isFinite = true → (∀ e ∈ l, e.isFinite = true) →
      l.Pairwise (fun a b => JNum.leb a b = true) →
      (insertAsc x l).Pairwise (fun a b => JNum.leb a b = true) := by
  intro l
  induction l with
  | nil =>
      intro _ _ _
      simp [insertAsc]
  | cons y ys ih =>
      intro hx hl h
      rw [List.pairwise_cons] at h
      unfold insertAsc
      split
      · next hle =>
          rw [List.pairwise_cons]
          refine ⟨?_, List.pairwise_cons.mpr h⟩
          intro b hb
          rcases List.mem_cons.mp hb with rfl | hb'
          · exact hle
          · exact leb_trans hle (h.1 b hb')
      · next hle =>
          rw [List.pairwise_cons]
          constructor
          · intro b hb
            rcases List.mem_cons.mp ((insertAsc_perm x ys).mem_iff.mp hb) with rfl | hb'
            · exact leb_total_fin hx (hl y (by simp)) (by simpa using hle)
            · exact h.1 b hb'
          · exact ih hx (fun e he => hl e (by simp [he])) h.2

theorem sortAsc_pairwise :
    ∀ l : List JNum, (∀ e ∈ l, e.isFinite = true) →
      (sortAsc l).Pairwise (fun a b => JNum.leb a b = true) := by
  intro l
  induction l with
  | nil =>
      intro _
      simp [sortAsc]
  | cons x xs ih =>
      intro hl
      refine insertAsc_pairwise (xs.foldr insertAsc []) (hl x (by simp)) ?_ ?_
      · intro e he
        exact hl e (by simp [(sortAsc_perm xs).mem_iff.mp he])
      · exact ih (fun e he => hl e (by simp [he]))

/-! ### C9 -/

/-- C9: the summary's median is the `median` of the used prices, which is
`NaN` on the empty list, the sole element for a singleton, the mean of the two
elements for a pair, and in general the middle element (odd length) or mean of
the two middle elements (even length) of an ascending sort of the list. -/
theorem c9_median_spec :
    (∀ i : Inputs, (validateInputs i).valid = true →
      (computeValuation i).summary.median =
        median (((computeValuation i).bridges.filter (fun b => b.used)).map
          (fun b => b.PricePerShare)))
    ∧ median [] = .nan
    ∧ (∀ x : JNum, median [x] = x)
    ∧ (∀ x y : JNum, median [x, y] = JNum.div (JNum.add x y) (.fin 2))
    ∧ (∀ l : List JNum, l ≠ [] → (∀ e ∈ l, e.isFinite = true) →
        (sortAsc l).Perm l ∧ (sortAsc l).Pairwise (fun a b => JNum.leb a b = true) ∧
          median l = (if l.length % 2 ≠ 0 then (sortAsc l).getD (l.length / 2) .nan
            else JNum.div (JNum.add ((sortAsc l).getD (l.length / 2 - 1) .nan)
              ((sortAsc l).getD (l.length / 2) .nan)) (.fin 2))) := by
  refine ⟨?_, by simp [median], ?_, ?_, ?_⟩
  · intro i hv
    rw [computeValuation_valid hv]
    show (aggregate (computeCore i).1 (computeCore i).2.1).1.median = _
    unfold aggregate
    dsimp only
    split
    · rfl
    · next h =>
        rw [show (List.map (fun b => b.PricePerShare)
            (List.filter (fun b => b.used) (computeCore i).1)) = [] by
          simpa [List.length_eq_zero] using h]
        simp [median]
  · intro x
    simp [median, sortAsc, insertAsc]
  · intro x y
    by_cases hxy : JNum.leb x y = true
    · simp [median, sortAsc, insertAsc, hxy]
    · simp [median, sortAsc, insertAsc, hxy, JNum.add_comm y x]
  · intro l hne hfin
    refine ⟨sortAsc_perm l, sortAsc_pairwise l hfin, ?_⟩
    have hlen : (sortAsc l).length = l.length := (sortAsc_perm l).length_eq
    unfold median
    rw [if_neg (by simpa [List.length_eq_zero] using hne)]
    simp only [hlen]

/-- Witness for C9 at the demo inputs. -/
theorem c9_median_spec_witness :
    (validateInputs demoInputs).valid = true ∧
      (computeValuation demoInputs).summary.median =
        median (((computeValuation demoInputs).bridges.filter (fun b => b.used)).map
          (fun b => b.PricePerShare)) :=
  ⟨by decide, c9_median_spec.1 demoInputs (by decide)⟩


/-! ### Warning-shape lemmas -/

theorem evBridge_warns (i : Inputs) (m : Method) (e : Option JNum) :
    (evBridge i m e).2 = [] ∨
      ∃ v, e = some v ∧ (evBridge i m e).2 = [negEquityWarning m v i.netDebtYen] := by
  unfold evBridge
  rcases e with _ | v
  · exact Or.inl rfl
  · dsimp only
    split
    · exact Or.inl rfl
    · split
      · exact Or.inr ⟨v, rfl, rfl⟩
      · exact Or.inl rfl

theorem aggregate_warns (b : List Bridge) (w : Method → JNum) :
    (aggregate b w).2 = [] ∨ (aggregate b w).2 = [avgFallbackWarning] := by
  unfold aggregate
  dsimp only
  split
  · split
    · exact Or.inl rfl
    · exact Or.inr rfl
  · exact Or.inl rfl

/-- Count of a negative-equity warning in the aggregation warnings: zero. -/
theorem count_negW_aggregate (i : Inputs) (m : Method) (ev nd : JNum) (hm : m ≠ .pe) :
    ∀ b w, (aggregate b w).2.count (negEquityWarning m ev nd) = 0 := by
  intro b w
  rcases aggregate_warns b w with h | h <;> rw [h]
  · rfl
  · rw [List.count_eq_zero]
    simp only [List.mem_singleton]
    cases m with
    | evSales => exact negW_sales_ne_fallback ev nd
    | evEbitda => exact negW_ebitda_ne_fallback ev nd
    | pe => exact absurd rfl hm

/-! ### C5 -/

/-- C5: for every validated input and EV-based method with a finite positive
EV whose equity `EV - netDebt` is `≤ 0`, the bridge has `used = false`,
`PricePerShare` exactly `0`, `Equity = EV - netDebt`, skip reason
`Negative equity value: <formatted equity>`, and exactly one warning naming
the method, the formatted EV and the formatted net debt is in the result's
warnings. -/
theorem c5_negative_equity :
    ∀ (i : Inputs) (m : Method) (ev : JNum),
      (validateInputs i).valid = true → m ≠ .pe →
      i.evByMethod m = some ev → ev.isFinite = true →
      JNum.gtb ev (.fin 0) = true →
      JNum.leb (JNum.sub ev i.netDebtYen) (.fin 0) = true →
      (computeValuation i).bridges.find? (fun b => b.method == m) =
        some ⟨m, ev, JNum.sub ev i.netDebtYen, .fin 0, false,
          some ("Negative equity value: " ++ formatJPY (JNum.sub ev i.netDebtYen))⟩
      ∧ (computeValuation i).warnings.count (negEquityWarning m ev i.netDebtYen) = 1 := by
  intro i m ev hv hm hev hf hpos hle
  rw [computeValuation_valid hv]
  dsimp only [computeCore]
  cases m with
  | pe => exact absurd rfl hm
  | evSales =>
      rw [hev, evBridge_negEquity_eq hf hpos hle]
      constructor
      · rw [List.find?_cons_of_pos _ (by simp)]
      · rw [List.count_append, List.count_append]
        rw [count_negW_aggregate i .evSales ev i.netDebtYen (by simp) _ _]
        have h2 : (ebitdaWarnings i).count (negEquityWarning .evSales ev i.netDebtYen) = 0 := by
          rw [List.count_eq_zero]
          unfold ebitdaWarnings
          rcases hE : i.evByMethod .evEbitda with _ | v
          · simp
          · dsimp only
            split
            · rcases evBridge_warns i .evEbitda (some v) with h | ⟨v', _, h⟩ <;> rw [h]
              · simp
              · simp only [List.mem_singleton]
                exact negW_sales_ne_negW_ebitda ev i.netDebtYen v' i.netDebtYen
            · split <;> simp only [List.mem_cons, List.mem_singleton, List.not_mem_nil] <;>
                rintro (h | h | h) <;>
                first
                  | exact (negW_sales_ne_skip ev i.netDebtYen) h
                  | exact (negW_sales_ne_reweight ev i.netDebtYen) h
                  | cases h
        rw [h2]
        simp [List.count_cons]
  | evEbitda =>
      constructor
      · rw [List.find?_cons_of_neg _ (by simp [evBridge_method])]
        unfold ebitdaBridgeOf
        rw [hev]
        dsimp only
        rw [if_pos hpos, evBridge_negEquity_eq hf hpos hle]
        rw [List.find?_cons_of_pos _ (by simp)]
      · rw [List.count_append, List.count_append]
        rw [count_negW_aggregate i .evEbitda ev i.netDebtYen (by simp) _ _]
        have h2 : (ebitdaWarnings i).count (negEquityWarning .evEbitda ev i.netDebtYen) = 1 := by
          unfold ebitdaWarnings
          rw [hev]
          dsimp only
          rw [if_pos hpos, evBridge_negEquity_eq hf hpos hle]
          simp [List.count_cons]
        have h1 : ((evBridge i .evSales (i.evByMethod .evSales)).2).count
            (negEquityWarning .evEbitda ev i.netDebtYen) = 0 := by
          rw [List.count_eq_zero]
          rcases evBridge_warns i .evSales (i.evByMethod .evSales) with h | ⟨v', _, h⟩ <;>
            rw [h]
          · simp
          · simp only [List.mem_singleton]
            exact (negW_sales_ne_negW_ebitda v' i.netDebtYen ev i.netDebtYen).symm
        rw [h1, h2]

/-- Witness for C5: net debt 10bn against EV 5bn on EV/Sales. -/
theorem c5_negative_equity_witness :
    (computeValuation negEquityInputs).bridges.find? (fun b => b.method == Method.evSales) =
      some ⟨.evSales, .fin 5000000000,
        JNum.sub (.fin 5000000000) negEquityInputs.netDebtYen, .fin 0, false,
        some ("Negative equity value: " ++
          formatJPY (JNum.sub (.fin 5000000000) negEquityInputs.netDebtYen))⟩
    ∧ (computeValuation negEquityInputs).warnings.count
        (negEquityWarning .evSales (.fin 5000000000) negEquityInputs.netDebtYen) = 1 :=
  c5_negative_equity negEquityInputs .evSales (.fin 5000000000) (by decide) (by decide) rfl
    (by decide) (by decide) (by decide)


/-! ### C3 -/

/-- C3 counterexample: with EV/EBITDA defined as `Infinity` — defined but not
finite-and-positive, so inside the claim's hypothesis — the special guard
`evEbitda > 0` passes and the generic EV rule produces skip reason
`Invalid EV: Infinity`, not `EBITDA <= 0 or invalid EV`, and no warning at
all. -/
theorem c3_claim_counterexample :
    ebitdaInfInputs.evByMethod .evEbitda = some .posInf ∧
      (JNum.posInf).isFinite = false ∧
      (validateInputs ebitdaInfInputs).valid = true ∧
      (computeValuation ebitdaInfInputs).bridges.find? (fun b => b.method == Method.evEbitda) =
        some ⟨.evEbitda, .nan, .nan, .nan, false, some "Invalid EV: Infinity"⟩ ∧
      ("Invalid EV: Infinity" : String) ≠ "EBITDA <= 0 or invalid EV" ∧
      (computeValuation ebitdaInfInputs).warnings = [] :=
  ⟨rfl, rfl, by decide, by decide, by decide, by decide⟩

/-- C3 (amended): for every validated input whose EV/EBITDA entry is defined
but not `> 0` (≤ 0, negative, or NaN — `+Infinity` instead passes the `> 0`
guard and is skipped as `Invalid EV`), the EV/EBITDA bridge is the skip row
with reason `EBITDA <= 0 or invalid EV`, the skip warning is emitted, and —
exactly when the EV/Sales bridge is used — the EV/Sales weight is increased by
the full original EV/EBITDA weight, the EV/EBITDA weight is zeroed, and the
reweighting warning is appended; otherwise the weights are unchanged and no
reweighting warning appears. -/
theorem c3_ebitda_skip_reweight :
    ∀ (i : Inputs) (v : JNum),
      (validateInputs i).valid = true →
      i.evByMethod .evEbitda = some v →
      JNum.gtb v (.fin 0) = false →
      (computeValuation i).bridges.find? (fun b => b.method == Method.evEbitda) =
        some skipBridgeEbitda
      ∧ ebitdaSkipWarning ∈ (computeValuation i).warnings
      ∧ (evSalesUsed i = true →
          finalWeights i .evSales =
            JNum.add (mergedWeights i .evSales) (mergedWeights i .evEbitda)
          ∧ finalWeights i .evEbitda = .fin 0
          ∧ reweightWarning ∈ (computeValuation i).warnings)
      ∧ (evSalesUsed i = false →
          finalWeights i = mergedWeights i
          ∧ reweightWarning ∉ (computeValuation i).warnings) := by
  intro i v hv hev hg
  rw [computeValuation_valid hv]
  dsimp only [computeCore]
  have hbr : ebitdaBridgeOf i = skipBridgeEbitda := by
    unfold ebitdaBridgeOf
    rw [hev]
    dsimp only
    rw [if_neg (by simp [hg])]
  have hwarns : ebitdaWarnings i =
      (if evSalesUsed i then [ebitdaSkipWarning, reweightWarning] else [ebitdaSkipWarning]) := by
    unfold ebitdaWarnings
    rw [hev]
    dsimp only
    rw [if_neg (by simp [hg])]
  refine ⟨?_, ?_, ?_, ?_⟩
  · rw [hbr, List.find?_cons_of_neg _ (by simp [evBridge_method]),
      List.find?_cons_of_pos _ (by simp [skipBridgeEbitda])]
  · simp only [List.mem_append, hwarns]
    refine Or.inl (Or.inr ?_)
    split <;> simp
  · intro hu
    have hfw : finalWeights i = adjustedWeights i := by
      unfold finalWeights
      rw [hev]
      dsimp only
      rw [if_neg (by simp [hg]), if_pos hu]
    refine ⟨by rw [hfw]; rfl, by rw [hfw]; rfl, ?_⟩
    simp only [List.mem_append, hwarns, hu, if_true]
    refine Or.inl (Or.inr ?_)
    simp
  · intro hu
    have hfw : finalWeights i = mergedWeights i := by
      unfold finalWeights
      rw [hev]
      dsimp only
      rw [if_neg (by simp [hg]), if_neg (by simp [hu])]
    refine ⟨hfw, ?_⟩
    simp only [List.mem_append, hwarns, hu, Bool.false_eq_true, if_false]
    rintro ((h | h) | h)
    · rcases evBridge_warns i .evSales (i.evByMethod .evSales) with he | ⟨v', _, he⟩ <;>
        rw [he] at h
      · cases h
      · exact (negW_sales_ne_reweight v' i.netDebtYen) (List.mem_singleton.mp h).symm
    · exact absurd (List.mem_singleton.mp h) (by decide)
    · rcases aggregate_warns ([(evBridge i .evSales (i.evByMethod .evSales)).1,
          ebitdaBridgeOf i, peBridge i i.pePrice]) (finalWeights i) with ha | ha <;>
        rw [ha] at h
      · cases h
      · exact absurd (List.mem_singleton.mp h) (by decide)

/-- Witness for C3 (amended) at EV/EBITDA = −1bn with EV/Sales valid: the
EV/Sales bridge is used there, so the reweighting branch fires. -/
theorem c3_ebitda_skip_reweight_witness :
    (computeValuation ebitdaNegInputs).bridges.find? (fun b => b.method == Method.evEbitda) =
        some skipBridgeEbitda
      ∧ ebitdaSkipWarning ∈ (computeValuation ebitdaNegInputs).warnings
      ∧ (evSalesUsed ebitdaNegInputs = true →
          finalWeights ebitdaNegInputs .evSales =
            JNum.add (mergedWeights ebitdaNegInputs .evSales)
              (mergedWeights ebitdaNegInputs .evEbitda)
          ∧ finalWeights ebitdaNegInputs .evEbitda = .fin 0
          ∧ reweightWarning ∈ (computeValuation ebitdaNegInputs).warnings)
      ∧ (evSalesUsed ebitdaNegInputs = false →
          finalWeights ebitdaNegInputs = mergedWeights ebitdaNegInputs
          ∧ reweightWarning ∉ (computeValuation ebitdaNegInputs).warnings) :=
  c3_ebitda_skip_reweight ebitdaNegInputs (.fin (-1000000000)) (by decide) rfl (by decide)


/-! ### Used-bridge shape lemmas -/

theorem peBridge_used_shape {i : Inputs} {e : Option JNum}
    (hu : (peBridge i e).used = true) :
    ∃ q : ℚ, e = some (.fin q) ∧ 0 < q ∧
      peBridge i e = ⟨.pe, .nan, JNum.mul (.fin q) i.sharesOutstanding, .fin q, true, none⟩ := by
  simp only [peBridge] at hu ⊢
  rcases e with _ | p
  · simp at hu
  · cases p with
    | fin q =>
        dsimp only at hu ⊢
        by_cases hc : (!(JNum.fin q).isFinite || JNum.leb (.fin q) (.fin 0)) = true
        · rw [if_pos hc] at hu
          simp at hu
        · rw [if_neg hc] at hu ⊢
          refine ⟨q, rfl, ?_, rfl⟩
          simp [JNum.isFinite, JNum.leb] at hc
          linarith
    | posInf => simp [JNum.isFinite] at hu
    | negInf => simp [JNum.isFinite] at hu
    | nan => simp [JNum.isFinite] at hu

theorem evBridge_used_shape {i : Inputs} {m : Method} {e : Option JNum}
    (hd : ∃ d : ℚ, i.netDebtYen = .fin d)
    (hs : ∃ s : ℚ, i.sharesOutstanding = .fin s ∧ 0 < s)
    (hu : (evBridge i m e).1.used = true) :
    ∃ ev eq pr : ℚ, 0 < eq ∧ 0 < pr ∧
      (evBridge i m e).1 = ⟨m, .fin ev, .fin eq, .fin pr, true, none⟩ := by
  obtain ⟨d, hdd⟩ := hd
  obtain ⟨s, hss, hs0⟩ := hs
  simp only [evBridge] at hu ⊢
  rcases e with _ | p
  · simp at hu
  · cases p with
    | fin q =>
        dsimp only at hu ⊢
        by_cases hc : (!(JNum.fin q).isFinite || JNum.leb (.fin q) (.fin 0)) = true
        · rw [if_pos hc] at hu
          simp at hu
        · rw [if_neg hc] at hu ⊢
          rw [hdd, JNum.sub_fin] at hu ⊢
          by_cases hq : JNum.leb (.fin (q - d)) (.fin 0) = true
          · rw [if_pos hq] at hu
            simp at hu
          · rw [if_neg hq] at hu ⊢
            have heq : (0:ℚ) < q - d := by
              simp [JNum.leb] at hq
              linarith
            rw [hss, JNum.div_fin hs0.ne']
            exact ⟨q, q - d, (q - d) / s, heq, div_pos heq hs0, rfl⟩
    | posInf => simp [JNum.isFinite] at hu
    | negInf => simp [JNum.isFinite] at hu
    | nan => simp [JNum.isFinite] at hu

theorem ebitdaBridgeOf_used_shape {i : Inputs}
    (hd : ∃ d : ℚ, i.netDebtYen = .fin d)
    (hs : ∃ s : ℚ, i.sharesOutstanding = .fin s ∧ 0 < s)
    (hu : (ebitdaBridgeOf i).used = true) :
    ∃ ev eq pr : ℚ, 0 < eq ∧ 0 < pr ∧
      ebitdaBridgeOf i = ⟨.evEbitda, .fin ev, .fin eq, .fin pr, true, none⟩ := by
  unfold ebitdaBridgeOf at hu ⊢
  rcases hE : i.evByMethod .evEbitda with _ | v
  · rw [hE] at hu
    simp [skipBridgeEbitda] at hu
  · rw [hE] at hu
    dsimp only at hu ⊢
    by_cases hg : JNum.gtb v (.fin 0) = true
    · rw [if_pos hg] at hu ⊢
      exact evBridge_used_shape hd hs hu
    · rw [if_neg hg] at hu
      simp [skipBridgeEbitda] at hu

/-! ### C10 -/

/-- C10: for every input that passes validation, every bridge with
`used = true` has a finite strictly positive `PricePerShare` (and, for the
EV-based methods, a finite strictly positive `Equity`); hence every price
entering the summary statistics is finite and strictly positive. -/
theorem c10_used_price_positive :
    ∀ i : Inputs, (validateInputs i).valid = true →
      (∀ b ∈ (computeValuation i).bridges, b.used = true →
        (∃ q : ℚ, b.PricePerShare = .fin q ∧ 0 < q)
        ∧ (b.method ≠ .pe → ∃ e : ℚ, b.Equity = .fin e ∧ 0 < e))
      ∧ (∀ p ∈ ((computeValuation i).bridges.filter (fun b => b.used)).map
            (fun b => b.PricePerShare),
          ∃ q : ℚ, p = .fin q ∧ 0 < q) := by
  intro i hv
  have hval := (validateInputs_valid_iff i).mp hv
  have hd := netDebt_ok hval.2.1
  have hs := shares_ok hval.1
  have key : ∀ b ∈ (computeValuation i).bridges, b.used = true →
      (∃ q : ℚ, b.PricePerShare = .fin q ∧ 0 < q)
      ∧ (b.method ≠ .pe → ∃ e : ℚ, b.Equity = .fin e ∧ 0 < e) := by
    intro b hb hu
    rw [computeValuation_valid hv] at hb
    dsimp only [computeCore] at hb
    simp only [List.mem_cons, List.not_mem_nil, or_false] at hb
    rcases hb with rfl | rfl | rfl
    · obtain ⟨ev, eq, pr, heq, hpr, hbr⟩ := evBridge_used_shape hd hs hu
      rw [hbr]
      exact ⟨⟨pr, rfl, hpr⟩, fun _ => ⟨eq, rfl, heq⟩⟩
    · obtain ⟨ev, eq, pr, heq, hpr, hbr⟩ := ebitdaBridgeOf_used_shape hd hs hu
      rw [hbr]
      exact ⟨⟨pr, rfl, hpr⟩, fun _ => ⟨eq, rfl, heq⟩⟩
    · obtain ⟨q, _, h0, hbr⟩ := peBridge_used_shape hu
      rw [hbr]
      exact ⟨⟨q, rfl, h0⟩, fun hne => absurd rfl hne⟩
  refine ⟨key, ?_⟩
  intro p hp
  rcases List.mem_map.mp hp with ⟨b, hbf, rfl⟩
  rcases List.mem_filter.mp hbf with ⟨hbm, hbu⟩
  exact (key b hbm hbu).1

/-- Witness for C10 at the demo inputs, EV/Sales bridge. -/
theorem c10_used_price_positive_witness :
    (∃ q : ℚ,
      (Bridge.mk .evSales (.fin 5062000000) (.fin 1272000000) (.fin 1272) true
          none).PricePerShare = .fin q ∧ 0 < q)
    ∧ ((Bridge.mk .evSales (.fin 5062000000) (.fin 1272000000) (.fin 1272) true
          none).method ≠ .pe →
        ∃ e : ℚ,
          (Bridge.mk .evSales (.fin 5062000000) (.fin 1272000000) (.fin 1272) true
            none).Equity = .fin e ∧ 0 < e) :=
  (c10_used_price_positive demoInputs (by decide)).1
    (Bridge.mk .evSales (.fin 5062000000) (.fin 1272000000) (.fin 1272) true none)
    (by decide) rfl


/-! ### Arithmetic fold lemmas for the aggregation bounds -/

theorem JNum.isFinite_exists {x : JNum} (h : x.isFinite = true) : ∃ q : ℚ, x = .fin q := by
  cases x with
  | fin q => exact ⟨q, rfl⟩
  | posInf => simp [JNum.isFinite] at h
  | negInf => simp [JNum.isFinite] at h
  | nan => simp [JNum.isFinite] at h

theorem foldl_add_fin :
    ∀ (l : List JNum) (c : ℚ), (∀ x ∈ l, x.isFinite = true) →
      l.foldl JNum.add (.fin c) = .fin (c + (l.map JNum.ratOf).sum) := by
  intro l
  induction l with
  | nil =>
      intro c _
      simp
  | cons a as ih =>
      intro c hfin
      obtain ⟨qa, rfl⟩ := JNum.isFinite_exists (hfin a (by simp))
      rw [List.foldl_cons, JNum.add_fin, ih (c + qa) (fun x hx => hfin x (by simp [hx]))]
      simp [JNum.ratOf]
      ring

theorem foldl_addg_fin {α : Type} (g : α → JNum) :
    ∀ (l : List α) (c : ℚ), (∀ x ∈ l, (g x).isFinite = true) →
      l.foldl (fun s x => JNum.add s (g x)) (.fin c) =
        .fin (c + (l.map (fun x => (g x).ratOf)).sum) := by
  intro l
  induction l with
  | nil =>
      intro c _
      simp
  | cons a as ih =>
      intro c hfin
      obtain ⟨qa, hqa⟩ := JNum.isFinite_exists (hfin a (by simp))
      rw [List.foldl_cons, hqa, JNum.add_fin, ih (c + qa) (fun x hx => hfin x (by simp [hx]))]
      simp [hqa, JNum.ratOf]
      ring

theorem foldl_jmin_fin :
    ∀ (l : List JNum) (c : ℚ), (∀ x ∈ l, x.isFinite = true) →
      ∃ m : ℚ, l.foldl JNum.jmin (.fin c) = .fin m ∧ m ≤ c ∧ ∀ x ∈ l, m ≤ x.ratOf := by
  intro l
  induction l with
  | nil =>
      intro c _
      exact ⟨c, rfl, le_refl c, by simp⟩
  | cons a as ih =>
      intro c hfin
      obtain ⟨qa, rfl⟩ := JNum.isFinite_exists (hfin a (by simp))
      rw [List.foldl_cons, JNum.jmin_fin]
      obtain ⟨m, hm, hmc, hall⟩ := ih (min c qa) (fun x hx => hfin x (by simp [hx]))
      refine ⟨m, hm, le_trans hmc (min_le_left _ _), ?_⟩
      intro x hx
      rcases List.mem_cons.mp hx with rfl | hx'
      · simpa [JNum.ratOf] using le_trans hmc (min_le_right c qa)
      · exact hall x hx'

theorem foldl_jmax_fin :
    ∀ (l : List JNum) (c : ℚ), (∀ x ∈ l, x.isFinite = true) →
      ∃ m : ℚ, l.foldl JNum.jmax (.fin c) = .fin m ∧ c ≤ m ∧ ∀ x ∈ l, x.ratOf ≤ m := by
  intro l
  induction l with
  | nil =>
      intro c _
      exact ⟨c, rfl, le_refl c, by simp⟩
  | cons a as ih =>
      intro c hfin
      obtain ⟨qa, rfl⟩ := JNum.isFinite_exists (hfin a (by simp))
      rw [List.foldl_cons, JNum.jmax_fin]
      obtain ⟨m, hm, hmc, hall⟩ := ih (max c qa) (fun x hx => hfin x (by simp [hx]))
      refine ⟨m, hm, le_trans (le_max_left _ _) hmc, ?_⟩
      intro x hx
      rcases List.mem_cons.mp hx with rfl | hx'
      · simpa [JNum.ratOf] using le_trans (le_max_right c qa) hmc
      · exact hall x hx'

theorem range_min_fin {l : List JNum} (hne : l ≠ []) (hfin : ∀ x ∈ l, x.isFinite = true) :
    ∃ m : ℚ, l.foldl JNum.jmin .posInf = .fin m ∧ ∀ x ∈ l, m ≤ x.ratOf := by
  rcases l with _ | ⟨a, as⟩
  · exact absurd rfl hne
  · obtain ⟨qa, rfl⟩ := JNum.isFinite_exists (hfin a (by simp))
    rw [List.foldl_cons, show JNum.jmin .posInf (.fin qa) = .fin qa from rfl]
    obtain ⟨m, hm, hmc, hall⟩ := foldl_jmin_fin as qa (fun x hx => hfin x (by simp [hx]))
    refine ⟨m, hm, ?_⟩
    intro x hx
    rcases List.mem_cons.mp hx with rfl | hx'
    · simpa [JNum.ratOf] using hmc
    · exact hall x hx'

theorem range_max_fin {l : List JNum} (hne : l ≠ []) (hfin : ∀ x ∈ l, x.isFinite = true) :
    ∃ m : ℚ, l.foldl JNum.jmax .negInf = .fin m ∧ ∀ x ∈ l, x.ratOf ≤ m := by
  rcases l with _ | ⟨a, as⟩
  · exact absurd rfl hne
  · obtain ⟨qa, rfl⟩ := JNum.isFinite_exists (hfin a (by simp))
    rw [List.foldl_cons, show JNum.jmax .negInf (.fin qa) = .fin qa from rfl]
    obtain ⟨m, hm, hmc, hall⟩ := foldl_jmax_fin as qa (fun x hx => hfin x (by simp [hx]))
    refine ⟨m, hm, ?_⟩
    intro x hx
    rcases List.mem_cons.mp hx with rfl | hx'
    · simpa [JNum.ratOf] using hmc
    · exact hall x hx'

theorem length_mul_le_sum (qs : List ℚ) (m : ℚ) (h : ∀ q ∈ qs, m ≤ q) :
    (qs.length : ℚ) * m ≤ qs.sum := by
  induction qs with
  | nil => simp
  | cons a as ih =>
      have h1 := ih (fun q hq => h q (by simp [hq]))
      have h2 := h a (by simp)
      simp only [List.length_cons, List.sum_cons]
      push_cast
      linarith

theorem sum_le_length_mul (qs : List ℚ) (m : ℚ) (h : ∀ q ∈ qs, q ≤ m) :
    qs.sum ≤ (qs.length : ℚ) * m := by
  induction qs with
  | nil => simp
  | cons a as ih =>
      have h1 := ih (fun q hq => h q (by simp [hq]))
      have h2 := h a (by simp)
      simp only [List.length_cons, List.sum_cons]
      push_cast
      linarith

theorem orZero_val {x : JNum} {q : ℚ} (h : x = .fin q) (hq : 0 ≤ q) :
    ∃ q' : ℚ, orZero x = .fin q' ∧ 0 ≤ q' := by
  subst h
  unfold orZero
  split
  · exact ⟨q, rfl, hq⟩
  · exact ⟨0, rfl, le_refl 0⟩

theorem median_bounds {l : List JNum} (hne : l ≠ []) (hfin : ∀ x ∈ l, x.isFinite = true)
    {mn mx : ℚ} (hmn : ∀ x ∈ l, mn ≤ x.ratOf) (hmx : ∀ x ∈ l, x.ratOf ≤ mx) :
    ∃ q : ℚ, median l = .fin q ∧ mn ≤ q ∧ q ≤ mx := by
  have hperm := sortAsc_perm l
  have hlpos : 0 < l.length := List.length_pos.mpr hne
  have hspos : 0 < (sortAsc l).length := by rw [hperm.length_eq]; exact hlpos
  have hmem : ∀ n, n < (sortAsc l).length →
      ∃ q : ℚ, (sortAsc l).getD n .nan = .fin q ∧ mn ≤ q ∧ q ≤ mx := by
    intro n h
    have hx : (sortAsc l).getD n .nan ∈ l := by
      rw [List.getD_eq_getElem?_getD, List.getElem?_eq_getElem h]
      exact hperm.mem_iff.mp (List.getElem_mem h)
    obtain ⟨q, hq⟩ := JNum.isFinite_exists (hfin _ hx)
    refine ⟨q, hq, ?_, ?_⟩
    · have h' := hmn _ hx
      rw [hq] at h'
      simpa [JNum.ratOf] using h'
    · have h' := hmx _ hx
      rw [hq] at h'
      simpa [JNum.ratOf] using h'
  unfold median
  rw [if_neg (by simpa [List.length_eq_zero] using hne)]
  dsimp only
  by_cases hpar : (sortAsc l).length % 2 ≠ 0
  · rw [if_pos hpar]
    exact hmem _ (Nat.div_lt_self hspos (by norm_num))
  · rw [if_neg hpar]
    push_neg at hpar
    have hmid : (sortAsc l).length / 2 < (sortAsc l).length :=
      Nat.div_lt_self hspos (by norm_num)
    have hmid1 : (sortAsc l).length / 2 - 1 < (sortAsc l).length := by omega
    obtain ⟨qa, ha, ha1, ha2⟩ := hmem _ hmid1
    obtain ⟨qb, hb, hb1, hb2⟩ := hmem _ hmid
    rw [ha, hb, JNum.add_fin, JNum.div_fin (by norm_num : (2:ℚ) ≠ 0)]
    exact ⟨(qa + qb) / 2, rfl, by linarith, by linarith⟩


theorem weighted_fold_bounds {w : Method → JNum} {W mn mx : ℚ} (hW : 0 < W)
    (hwm : ∀ m, ∃ q : ℚ, w m = .fin q ∧ 0 ≤ q) :
    ∀ (l : List Bridge) (c : ℚ),
      (∀ b ∈ l, ∃ q : ℚ, b.PricePerShare = .fin q ∧ mn ≤ q ∧ q ≤ mx) →
      ∃ r : ℚ,
        l.foldl (fun s b => JNum.add s (JNum.mul b.PricePerShare
          (JNum.div (orZero (w b.method)) (.fin W)))) (.fin c) = .fin r ∧
        c + mn * ((l.map (fun b => (orZero (w b.method)).ratOf)).sum / W) ≤ r ∧
        r ≤ c + mx * ((l.map (fun b => (orZero (w b.method)).ratOf)).sum / W) := by
  intro l
  induction l with
  | nil =>
      intro c _
      exact ⟨c, rfl, by simp, by simp⟩
  | cons a as ih =>
      intro c hl
      obtain ⟨p, hp, hpmn, hpmx⟩ := hl a (by simp)
      obtain ⟨wa, hwa, hwa0⟩ := hwm a.method
      obtain ⟨wa', hwa', hwa'0⟩ := orZero_val hwa hwa0
      rw [List.foldl_cons, hp, hwa', JNum.div_fin hW.ne', JNum.mul_fin, JNum.add_fin]
      obtain ⟨r, hr, hlo, hhi⟩ := ih (c + p * (wa' / W)) (fun b hb => hl b (by simp [hb]))
      rw [List.map_cons, List.sum_cons, hwa']
      refine ⟨r, hr, ?_, ?_⟩
      · have h1 : mn * (wa' / W) ≤ p * (wa' / W) :=
          mul_le_mul_of_nonneg_right hpmn (div_nonneg hwa'0 hW.le)
        have h2 : mn * (((JNum.fin wa').ratOf +
            (as.map (fun b => (orZero (w b.method)).ratOf)).sum) / W) =
            mn * (wa' / W) +
              mn * ((as.map (fun b => (orZero (w b.method)).ratOf)).sum / W) := by
          simp [JNum.ratOf]
          ring
        rw [h2]
        linarith
      · have h1 : p * (wa' / W) ≤ mx * (wa' / W) :=
          mul_le_mul_of_nonneg_right hpmx (div_nonneg hwa'0 hW.le)
        have h2 : mx * (((JNum.fin wa').ratOf +
            (as.map (fun b => (orZero (w b.method)).ratOf)).sum) / W) =
            mx * (wa' / W) +
              mx * ((as.map (fun b => (orZero (w b.method)).ratOf)).sum / W) := by
          simp [JNum.ratOf]
          ring
        rw [h2]
        linarith

theorem mergedWeights_nonneg {i : Inputs}
    (hw : ∀ m w, i.weights m = some w → ∃ q : ℚ, w = .fin q ∧ 0 ≤ q) :
    ∀ m, ∃ q : ℚ, mergedWeights i m = .fin q ∧ 0 ≤ q := by
  intro m
  unfold mergedWeights
  rcases hm : i.weights m with _ | x
  · cases m with
    | evSales => exact ⟨2/5, rfl, by norm_num⟩
    | evEbitda => exact ⟨2/5, rfl, by norm_num⟩
    | pe => exact ⟨1/5, rfl, by norm_num⟩
  · simpa using hw m x hm

theorem finalWeights_nonneg {i : Inputs}
    (hw : ∀ m w, i.weights m = some w → ∃ q : ℚ, w = .fin q ∧ 0 ≤ q) :
    ∀ m, ∃ q : ℚ, finalWeights i m = .fin q ∧ 0 ≤ q := by
  intro m
  unfold finalWeights
  rcases i.evByMethod .evEbitda with _ | v
  · exact mergedWeights_nonneg hw m
  · dsimp only
    split
    · exact mergedWeights_nonneg hw m
    · split
      · unfold adjustedWeights
        cases m with
        | evSales =>
            obtain ⟨a, ha, ha0⟩ := mergedWeights_nonneg hw .evSales
            obtain ⟨b, hb, hb0⟩ := mergedWeights_nonneg hw .evEbitda
            rw [ha, hb, JNum.add_fin]
            exact ⟨a + b, rfl, by linarith⟩
        | evEbitda => exact ⟨0, rfl, le_refl 0⟩
        | pe => exact mergedWeights_nonneg hw .pe
      · exact mergedWeights_nonneg hw m

/-- Every used bridge of the core computation has a finite positive price
(validation supplies finite net debt and positive finite shares). -/
theorem usedBridge_price_pos {i : Inputs} (hv : (validateInputs i).valid = true) :
    ∀ b ∈ (computeCore i).1, b.used = true →
      ∃ q : ℚ, b.PricePerShare = .fin q ∧ 0 < q := by
  have hval := (validateInputs_valid_iff i).mp hv
  have hd := netDebt_ok hval.2.1
  have hs := shares_ok hval.1
  intro b hb hu
  dsimp only [computeCore] at hb
  simp only [List.mem_cons, List.not_mem_nil, or_false] at hb
  rcases hb with rfl | rfl | rfl
  · obtain ⟨ev, eq, pr, heq, hpr, hbr⟩ := evBridge_used_shape hd hs hu
    rw [hbr]
    exact ⟨pr, rfl, hpr⟩
  · obtain ⟨ev, eq, pr, heq, hpr, hbr⟩ := ebitdaBridgeOf_used_shape hd hs hu
    rw [hbr]
    exact ⟨pr, rfl, hpr⟩
  · obtain ⟨q, _, h0, hbr⟩ := peBridge_used_shape hu
    rw [hbr]
    exact ⟨q, rfl, h0⟩


theorem aggregate_in_range (bridges : List Bridge) (w : Method → JNum)
    (hp : ∀ b ∈ bridges, b.used = true → ∃ q : ℚ, b.PricePerShare = .fin q ∧ 0 < q)
    (hw : ∀ m, ∃ q : ℚ, w m = .fin q ∧ 0 ≤ q)
    (hcount : 0 < (bridges.filter (fun b => b.used)).length) :
    (JNum.leb (aggregate bridges w).1.range.1 (aggregate bridges w).1.avg = true
      ∧ JNum.leb (aggregate bridges w).1.avg (aggregate bridges w).1.range.2 = true)
    ∧ (JNum.leb (aggregate bridges w).1.range.1 (aggregate bridges w).1.median = true
      ∧ JNum.leb (aggregate bridges w).1.median (aggregate bridges w).1.range.2 = true)
    ∧ (JNum.leb (aggregate bridges w).1.range.1 (aggregate bridges w).1.weighted = true
      ∧ JNum.leb (aggregate bridges w).1.weighted (aggregate bridges w).1.range.2 = true) := by
  have hpval : ∀ p ∈ (bridges.filter (fun b => b.used)).map (fun b => b.PricePerShare),
      ∃ q : ℚ, p = .fin q ∧ 0 < q := by
    intro p hpm
    rcases List.mem_map.mp hpm with ⟨b, hbf, rfl⟩
    rcases List.mem_filter.mp hbf with ⟨hbm, hbu⟩
    exact hp b hbm hbu
  have hpfin : ∀ p ∈ (bridges.filter (fun b => b.used)).map (fun b => b.PricePerShare),
      p.isFinite = true := by
    intro p hpm
    obtain ⟨q, hq, _⟩ := hpval p hpm
    rw [hq]
    rfl
  have hplen : 0 < ((bridges.filter (fun b => b.used)).map
      (fun b => b.PricePerShare)).length := by
    simpa using hcount
  have hpne : (bridges.filter (fun b => b.used)).map (fun b => b.PricePerShare) ≠ [] :=
    List.length_pos.mp hplen
  obtain ⟨mn, hmn, hmnle⟩ := range_min_fin hpne hpfin
  obtain ⟨mx, hmx, hmxge⟩ := range_max_fin hpne hpfin
  have hnpos : (0:ℚ) < (((bridges.filter (fun b => b.used)).map
      (fun b => b.PricePerShare)).length : ℚ) := by
    exact_mod_cast hplen
  have hsum := foldl_add_fin
    ((bridges.filter (fun b => b.used)).map (fun b => b.PricePerShare)) 0 hpfin
  have hqs_mn : ∀ q ∈ ((bridges.filter (fun b => b.used)).map
      (fun b => b.PricePerShare)).map JNum.ratOf, mn ≤ q := by
    intro q hq
    rcases List.mem_map.mp hq with ⟨p, hpm, rfl⟩
    exact hmnle p hpm
  have hqs_mx : ∀ q ∈ ((bridges.filter (fun b => b.used)).map
      (fun b => b.PricePerShare)).map JNum.ratOf, q ≤ mx := by
    intro q hq
    rcases List.mem_map.mp hq with ⟨p, hpm, rfl⟩
    exact hmxge p hpm
  have havg_lo : mn ≤ (0 + (((bridges.filter (fun b => b.used)).map
      (fun b => b.PricePerShare)).map JNum.ratOf).sum) /
      (((bridges.filter (fun b => b.used)).map (fun b => b.PricePerShare)).length : ℚ) := by
    rw [zero_add, le_div_iff hnpos]
    have := length_mul_le_sum _ mn hqs_mn
    simpa [mul_comm] using this
  have havg_hi : (0 + (((bridges.filter (fun b => b.used)).map
      (fun b => b.PricePerShare)).map JNum.ratOf).sum) /
      (((bridges.filter (fun b => b.used)).map (fun b => b.PricePerShare)).length : ℚ) ≤ mx := by
    rw [zero_add, div_le_iff hnpos]
    have := sum_le_length_mul _ mx hqs_mx
    simpa [mul_comm] using this
  obtain ⟨md, hmd, hmd1, hmd2⟩ := median_bounds hpne hpfin hmnle hmxge
  have hbval : ∀ b ∈ bridges.filter (fun b => b.used),
      ∃ q : ℚ, b.PricePerShare = .fin q ∧ mn ≤ q ∧ q ≤ mx := by
    intro b hb
    rcases List.mem_filter.mp hb with ⟨hbm, hbu⟩
    obtain ⟨q, hq, _⟩ := hp b hbm hbu
    refine ⟨q, hq, ?_, ?_⟩
    · have := hmnle b.PricePerShare (List.mem_map.mpr ⟨b, hb, rfl⟩)
      rw [hq] at this
      simpa [JNum.ratOf] using this
    · have := hmxge b.PricePerShare (List.mem_map.mpr ⟨b, hb, rfl⟩)
      rw [hq] at this
      simpa [JNum.ratOf] using this
  have hwfin : ∀ b ∈ bridges.filter (fun b => b.used),
      (orZero (w b.method)).isFinite = true := by
    intro b _
    obtain ⟨q, hq, h0⟩ := hw b.method
    obtain ⟨q', hq', _⟩ := orZero_val hq h0
    rw [hq']
    rfl
  have htw := foldl_addg_fin (fun b => orZero (w b.method))
    (bridges.filter (fun b => b.used)) 0 hwfin
  have hW0 : 0 ≤ ((bridges.filter (fun b => b.used)).map
      (fun b => (orZero (w b.method)).ratOf)).sum := by
    apply List.sum_nonneg
    intro q hq
    rcases List.mem_map.mp hq with ⟨b, _, rfl⟩
    obtain ⟨qb, hqb, h0⟩ := hw b.method
    obtain ⟨qb', hqb', h0'⟩ := orZero_val hqb h0
    rw [hqb']
    simpa [JNum.ratOf] using h0'
  unfold aggregate
  dsimp only
  rw [if_pos hplen, if_pos hplen, if_pos hplen, if_pos hplen]
  dsimp only
  rw [hmn, hmx, hsum, JNum.div_fin hnpos.ne', hmd]
  by_cases hWpos : (0:ℚ) < 0 + ((bridges.filter (fun b => b.used)).map
      (fun b => (orZero (w b.method)).ratOf)).sum
  · rw [htw, if_pos (by simp [JNum.gtb, JNum.ltb]; linarith [hWpos])]
    obtain ⟨r, hr, hlo, hhi⟩ := weighted_fold_bounds hWpos hw
      (bridges.filter (fun b => b.used)) 0 hbval
    rw [hr]
    dsimp only
    have hWq : ((bridges.filter (fun b => b.used)).map
        (fun b => (orZero (w b.method)).ratOf)).sum /
        (0 + ((bridges.filter (fun b => b.used)).map
          (fun b => (orZero (w b.method)).ratOf)).sum) = 1 := by
      rw [zero_add]
      exact div_self (by linarith [hWpos])
    rw [hWq] at hlo hhi
    refine ⟨⟨?_, ?_⟩, ⟨?_, ?_⟩, ⟨?_, ?_⟩⟩ <;>
      simp only [JNum.leb, decide_eq_true_eq] <;> linarith
  · rw [htw, if_neg (by
      simp only [JNum.gtb, JNum.ltb, decide_eq_true_eq]
      intro h
      exact hWpos (by linarith))]
    dsimp only
    refine ⟨⟨?_, ?_⟩, ⟨?_, ?_⟩, ⟨?_, ?_⟩⟩ <;>
      simp only [JNum.leb, decide_eq_true_eq] <;> linarith


/-! ### C7 -/

/-- C7: for every validated input with all supplied weights non-negative
(finite), whenever `validMethodCount > 0` each of `avg`, `median` and
`weighted` lies within the closed interval `[range.1, range.2]` of the used
bridges' prices. -/
theorem c7_summary_in_range :
    ∀ i : Inputs, (validateInputs i).valid = true →
      (∀ m w, i.weights m = some w → ∃ q : ℚ, w = .fin q ∧ 0 ≤ q) →
      0 < (computeValuation i).summary.validMethodCount →
      (JNum.leb (computeValuation i).summary.range.1 (computeValuation i).summary.avg = true
        ∧ JNum.leb (computeValuation i).summary.avg (computeValuation i).summary.range.2 = true)
      ∧ (JNum.leb (computeValuation i).summary.range.1 (computeValuation i).summary.median = true
        ∧ JNum.leb (computeValuation i).summary.median
            (computeValuation i).summary.range.2 = true)
      ∧ (JNum.leb (computeValuation i).summary.range.1
            (computeValuation i).summary.weighted = true
        ∧ JNum.leb (computeValuation i).summary.weighted
            (computeValuation i).summary.range.2 = true) := by
  intro i hv hw hcount
  rw [computeValuation_valid hv] at hcount ⊢
  dsimp only at hcount ⊢
  have hcount' : 0 < ((computeCore i).1.filter (fun b => b.used)).length := by
    simpa [aggregate] using hcount
  have hwnn : ∀ m, ∃ q : ℚ, (computeCore i).2.1 m = .fin q ∧ 0 ≤ q :=
    finalWeights_nonneg hw
  exact aggregate_in_range _ _ (usedBridge_price_pos hv) hwnn hcount'

/-- Witness for C7 at the demo inputs (no supplied weights, three used
methods). -/
theorem c7_summary_in_range_witness :
    (JNum.leb (computeValuation demoInputs).summary.range.1
        (computeValuation demoInputs).summary.avg = true
      ∧ JNum.leb (computeValuation demoInputs).summary.avg
          (computeValuation demoInputs).summary.range.2 = true)
    ∧ (JNum.leb (computeValuation demoInputs).summary.range.1
          (computeValuation demoInputs).summary.median = true
      ∧ JNum.leb (computeValuation demoInputs).summary.median
          (computeValuation demoInputs).summary.range.2 = true)
    ∧ (JNum.leb (computeValuation demoInputs).summary.range.1
          (computeValuation demoInputs).summary.weighted = true
      ∧ JNum.leb (computeValuation demoInputs).summary.weighted
          (computeValuation demoInputs).summary.range.2 = true) :=
  c7_summary_in_range demoInputs (by decide)
    (by intro m w h; simp [demoInputs] at h) (by decide)

